import Mathlib

/-!
# Example-Lexer: a shallow embedding of `src/main.cpp`

The C++ program is a hand-written lexer: a `Lexer` object holds a borrowed
character buffer `input_` and a cursor `position_`; `getNextToken` skips
whitespace and dispatches on the current character to one of four scanning
routines.  This file embeds the token type, the token record, the lexer state
and every member function as executable Lean definitions, and proves
properties of them.

Modelling decisions:

* a C++ `char` is a Lean `Char`; the `<cctype>` predicates are those of the
  default "C" locale (the program never calls `setlocale`), so they hold only
  for ASCII characters;
* a `std::string_view` is a `List Char`; `substr (start, n)` is
  `(input.drop start).take n`;
* `std::source_location::current()` is evaluated at the `return` statement that
  contains it, so it denotes a fixed place in `main.cpp`; it is modelled by the
  line number of that place (one call site per line, so the line determines the
  column, the file and the function name);
* `throw std::runtime_error (what)` is `Except.error what`; the lexer state at
  the time of the throw is still returned, since the object outlives the call;
* every `while` loop of the source advances the cursor and is bounded by the
  number of characters left; the loops are modelled by structural recursion on
  that bound, and `advanceWhile_stops` shows the bound is never what ends them.
-/

namespace ExampleLexer

/-! ## Data model -/

/-- The enumeration `TokenType` (main.cpp, lines 8-57), in source order. -/
inductive TokenType
  | Identifier | Number | Comment
  | Plus | Minus | Multiply | Divide | Modulus | Assign | LessThan | GreaterThan
  | Semicolon | Colon | Dot | Comma
  | SingleQuote | DoubleQuote | LeftParenthesis | LeftBrace | LeftBracket
  | RightParenthesis | RightBrace | RightBracket
  | Slash | Backslash | QuestionMark | ExclamationMark | DollarSign | Ampersand
  | VerticalBar | AtSign | Caret
  | Keyword | Boolean | DataType
  | End | Unexpected
  deriving DecidableEq, Repr

/-- A `std::source_location`: the line of `main.cpp` on which
`std::source_location::current()` is written. -/
structure SourceLocation where
  line : Nat
  deriving DecidableEq, Repr

/-- The record `Token` (main.cpp, lines 59-63). -/
structure Token where
  type : TokenType
  lexeme : List Char
  location : SourceLocation
  deriving DecidableEq, Repr

/-- The data members of `Lexer` (main.cpp, lines 90-91). -/
structure Lexer where
  input_ : List Char
  position_ : Nat
  deriving DecidableEq, Repr

/-- The constructor `Lexer (input)`: the cursor starts at 0 (main.cpp, line 67). -/
def Lexer.new (input : List Char) : Lexer := ⟨input, 0⟩

/-! ## Character classification (`<cctype>`, "C" locale) -/

/-- `std::isdigit`: the ten decimal digits. -/
def isdigit (c : Char) : Bool := decide (48 ≤ c.toNat) && decide (c.toNat ≤ 57)

/-- `std::isalpha`: the 26 upper-case and 26 lower-case ASCII letters. -/
def isalpha (c : Char) : Bool :=
  (decide (65 ≤ c.toNat) && decide (c.toNat ≤ 90)) ||
  (decide (97 ≤ c.toNat) && decide (c.toNat ≤ 122))

/-- `std::isalnum`: a letter or a digit. -/
def isalnum (c : Char) : Bool := isalpha c || isdigit c

/-- `std::isspace`: space, and the five control characters tab, newline,
vertical tab, form feed, carriage return (codes 9 to 13). -/
def isspace (c : Char) : Bool :=
  decide (c.toNat = 32) || (decide (9 ≤ c.toNat) && decide (c.toNat ≤ 13))

/-! ## The scanning loops -/

/-- The loop shape shared by the four `while` loops of the source,
`while (position_ < input_.size() && p (input_[position_])) ++position_;`,
run for at most `fuel` iterations from cursor `pos`; the result is the final
cursor. -/
def advanceWhile (p : Char → Bool) (input : List Char) : Nat → Nat → Nat
  | 0, pos => pos
  | fuel + 1, pos =>
    match input[pos]? with
    | some c => if p c then advanceWhile p input fuel (pos + 1) else pos
    | none => pos

/-- The call `input_.substr (start, n)`. -/
def substr (input : List Char) (start n : Nat) : List Char := (input.drop start).take n

/-- The loop condition of `lexNumber`: `std::isdigit (c) || c == '.'`. -/
def numberChar (c : Char) : Bool := isdigit c || c == '.'

/-- The loop condition of `lexIdentifierOrKeyword`: `std::isalnum (c) || c == '_'`. -/
def identifierChar (c : Char) : Bool := isalnum c || c == '_'

/-- The loop condition of `lexComment`: `c != '\n'`. -/
def commentChar (c : Char) : Bool := c != '\n'

/-- The member `skipWhitespace` (main.cpp, lines 93-97). -/
def skipWhitespace (lx : Lexer) : Lexer :=
  { lx with position_ :=
      advanceWhile isspace lx.input_ (lx.input_.length - lx.position_) lx.position_ }

/-- The table `keywords` (main.cpp, lines 99-113). -/
def keywords : List (List Char × TokenType) :=
  [ ("if".toList, .Keyword), ("else".toList, .Keyword), ("switch".toList, .Keyword),
    ("case".toList, .Keyword), ("while".toList, .Keyword), ("for".toList, .Keyword),
    ("break".toList, .Keyword), ("continue".toList, .Keyword), ("return".toList, .Keyword),
    ("include".toList, .Keyword) ]

/-- The table `booleans` (main.cpp, lines 115-120). -/
def booleans : List (List Char × TokenType) :=
  [ ("true".toList, .Boolean), ("false".toList, .Boolean) ]

/-- The table `data_types` (main.cpp, lines 122-131). -/
def data_types : List (List Char × TokenType) :=
  [ ("int".toList, .DataType), ("string".toList, .DataType), ("char".toList, .DataType),
    ("boolean".toList, .DataType) ]

/-- The member `lexNumber` (main.cpp, lines 133-139). -/
def lexNumber (lx : Lexer) : Token × Lexer :=
  let start := lx.position_
  let pos := advanceWhile numberChar lx.input_ (lx.input_.length - start) start
  (⟨.Number, substr lx.input_ start (pos - start), ⟨138⟩⟩, { lx with position_ := pos })

/-- The member `lexIdentifierOrKeyword` (main.cpp, lines 141-157): the three
tables are consulted in the order keywords, booleans, data types. -/
def lexIdentifierOrKeyword (lx : Lexer) : Token × Lexer :=
  let start := lx.position_
  let pos := advanceWhile identifierChar lx.input_ (lx.input_.length - start) start
  let lexeme := substr lx.input_ start (pos - start)
  let lx1 : Lexer := { lx with position_ := pos }
  match keywords.lookup lexeme with
  | some ty => (⟨ty, lexeme, ⟨148⟩⟩, lx1)
  | none =>
    match booleans.lookup lexeme with
    | some ty => (⟨ty, lexeme, ⟨151⟩⟩, lx1)
    | none =>
      match data_types.lookup lexeme with
      | some ty => (⟨ty, lexeme, ⟨154⟩⟩, lx1)
      | none => (⟨.Identifier, lexeme, ⟨156⟩⟩, lx1)

/-- The member `lexComment` (main.cpp, lines 160-166). -/
def lexComment (lx : Lexer) : Token × Lexer :=
  let start := lx.position_
  let pos := advanceWhile commentChar lx.input_ (lx.input_.length - start) start
  (⟨.Comment, substr lx.input_ start (pos - start), ⟨165⟩⟩, { lx with position_ := pos })

/-- The `switch` of `createOperatorToken` (main.cpp, lines 170-229), cases in
source order; the lexeme of each case is the string literal written there. -/
def operatorSwitch (currentChar : Char) : Except String Token :=
  if currentChar = '+' then .ok ⟨.Plus, ['+'], ⟨172⟩⟩
  else if currentChar = '-' then .ok ⟨.Minus, ['-'], ⟨174⟩⟩
  else if currentChar = '*' then .ok ⟨.Multiply, ['*'], ⟨176⟩⟩
  else if currentChar = '/' then .ok ⟨.Divide, ['/'], ⟨178⟩⟩
  else if currentChar = '%' then .ok ⟨.Modulus, ['%'], ⟨180⟩⟩
  else if currentChar = '=' then .ok ⟨.Assign, ['='], ⟨182⟩⟩
  else if currentChar = '(' then .ok ⟨.LeftParenthesis, ['('], ⟨184⟩⟩
  else if currentChar = '\x7b' then .ok ⟨.LeftBrace, ['\x7b'], ⟨186⟩⟩
  else if currentChar = '[' then .ok ⟨.LeftBracket, ['['], ⟨188⟩⟩
  else if currentChar = ')' then .ok ⟨.RightParenthesis, [')'], ⟨190⟩⟩
  else if currentChar = '\x7d' then .ok ⟨.RightBrace, ['\x7d'], ⟨192⟩⟩
  else if currentChar = ']' then .ok ⟨.RightBracket, [']'], ⟨194⟩⟩
  else if currentChar = ';' then .ok ⟨.Semicolon, [';'], ⟨196⟩⟩
  else if currentChar = ':' then .ok ⟨.Colon, [':'], ⟨198⟩⟩
  else if currentChar = '.' then .ok ⟨.Dot, ['.'], ⟨200⟩⟩
  else if currentChar = ',' then .ok ⟨.Comma, [','], ⟨202⟩⟩
  else if currentChar = '\x5c' then .ok ⟨.Backslash, ['\x5c'], ⟨204⟩⟩
  else if currentChar = '\x27' then .ok ⟨.SingleQuote, ['\x27'], ⟨206⟩⟩
  else if currentChar = '\x22' then .ok ⟨.DoubleQuote, ['\x22'], ⟨208⟩⟩
  else if currentChar = '?' then .ok ⟨.QuestionMark, ['?'], ⟨210⟩⟩
  else if currentChar = '!' then .ok ⟨.ExclamationMark, ['!'], ⟨212⟩⟩
  else if currentChar = '$' then .ok ⟨.DollarSign, ['$'], ⟨214⟩⟩
  else if currentChar = '&' then .ok ⟨.Ampersand, ['&'], ⟨216⟩⟩
  else if currentChar = '|' then .ok ⟨.VerticalBar, ['|'], ⟨218⟩⟩
  else if currentChar = '@' then .ok ⟨.AtSign, ['@'], ⟨220⟩⟩
  else if currentChar = '^' then .ok ⟨.Caret, ['^'], ⟨222⟩⟩
  else if currentChar = '<' then .ok ⟨.LessThan, ['<'], ⟨224⟩⟩
  else if currentChar = '>' then .ok ⟨.GreaterThan, ['>'], ⟨226⟩⟩
  else .error ("Unexpected character: " ++ String.singleton currentChar)

/-- The member `createOperatorToken` (main.cpp, lines 168-230): the cursor is
advanced first, then the character is classified; the `default` case throws. -/
def createOperatorToken (lx : Lexer) (currentChar : Char) : Except String Token × Lexer :=
  (operatorSwitch currentChar, { lx with position_ := lx.position_ + 1 })

/-- The member `getNextToken` (main.cpp, lines 69-87). -/
def getNextToken (lx : Lexer) : Except String Token × Lexer :=
  let lx1 := skipWhitespace lx
  match lx1.input_[lx1.position_]? with
  | none => (.ok ⟨.End, [], ⟨73⟩⟩, lx1)
  | some currentChar =>
    if isdigit currentChar then
      let r := lexNumber lx1
      (.ok r.1, r.2)
    else if isalpha currentChar || currentChar == '_' then
      let r := lexIdentifierOrKeyword lx1
      (.ok r.1, r.2)
    else if currentChar == '#' then
      let r := lexComment lx1
      (.ok r.1, r.2)
    else
      createOperatorToken lx1 currentChar

/-- How the loop of `main` ends. -/
inductive ScanResult
  | finished (tokens : List Token)
  | thrown (tokens : List Token) (what : String)
  | outOfFuel (tokens : List Token)
  deriving DecidableEq, Repr

/-- Put a token in front of the tokens of a scan result. -/
def ScanResult.cons (t : Token) : ScanResult → ScanResult
  | .finished ts => .finished (t :: ts)
  | .thrown ts w => .thrown (t :: ts) w
  | .outOfFuel ts => .outOfFuel (t :: ts)

/-- The loop of `main` (main.cpp, lines 248-366),
`do { token = lexer.getNextToken (); ... } while (token.type != TokenType::End);`,
run for at most `fuel` calls: `finished` lists the tokens returned, the final
`End` included; `thrown` lists the tokens returned before a call threw. -/
def tokenize : Nat → Lexer → ScanResult
  | 0, _ => .outOfFuel []
  | fuel + 1, lx =>
    match getNextToken lx with
    | (.error what, _) => .thrown [] what
    | (.ok token, lx1) =>
      if token.type = .End then .finished [token]
      else (tokenize fuel lx1).cons token

/-- The (kind, lexeme) pairs of a list of tokens, lexemes as strings. -/
def kindsAndLexemes (ts : List Token) : List (TokenType × String) :=
  ts.map (fun t => (t.type, String.mk t.lexeme))

/-! ## Notions used to state the properties -/

/-- The input from the cursor on. -/
def Lexer.rest (lx : Lexer) : List Char := lx.input_.drop lx.position_

/-- The input from the first non-whitespace character at or after the cursor on. -/
def Lexer.unskipped (lx : Lexer) : List Char := lx.rest.dropWhile isspace

/-- The first non-whitespace character at or after the cursor, if there is one. -/
def firstNonWhitespace (lx : Lexer) : Option Char := lx.unskipped.head?

/-- The index in the input of the first non-whitespace character at or after the
cursor (the end of the whitespace run that starts at the cursor). -/
def Lexer.tokenStart (lx : Lexer) : Nat := lx.position_ + (lx.rest.takeWhile isspace).length

/-- The 28 operator and punctuation characters with the kind the token kind
catalogue of the specification assigns to each, in the order of the catalogue. -/
def operatorCatalogue : List (Char × TokenType) :=
  [ ('+', .Plus), ('-', .Minus), ('*', .Multiply), ('/', .Divide), ('%', .Modulus),
    ('=', .Assign), ('<', .LessThan), ('>', .GreaterThan), (';', .Semicolon),
    (':', .Colon), ('.', .Dot), (',', .Comma), ('\x27', .SingleQuote),
    ('\x22', .DoubleQuote), ('(', .LeftParenthesis), ('\x7b', .LeftBrace),
    ('[', .LeftBracket), (')', .RightParenthesis), ('\x7d', .RightBrace),
    (']', .RightBracket), ('\x5c', .Backslash), ('?', .QuestionMark),
    ('!', .ExclamationMark), ('$', .DollarSign), ('&', .Ampersand),
    ('|', .VerticalBar), ('@', .AtSign), ('^', .Caret) ]

/-- The 28 operator and punctuation characters of the catalogue. -/
def operatorChars : List Char := operatorCatalogue.map Prod.fst

/-- A character some classification rule of `getNextToken` accepts as the
first character of a token: a digit, a letter, an underscore, the comment
marker, or one of the 28 operator and punctuation characters. -/
def recognised (c : Char) : Bool :=
  isdigit c || isalpha c || c == '_' || c == '#' || operatorChars.contains c

/-- The kind of a word as the specification words it: the keyword table first,
then the boolean table, then the data-type table, else an identifier. -/
def wordKind (w : List Char) : TokenType :=
  if w ∈ ["if", "else", "switch", "case", "while", "for", "break", "continue", "return",
      "include"].map String.toList then .Keyword
  else if w ∈ ["true", "false"].map String.toList then .Boolean
  else if w ∈ ["int", "string", "char", "boolean"].map String.toList then .DataType
  else .Identifier

/-- The state after `n` calls of `getNextToken`, whatever they returned. -/
def afterCalls : Nat → Lexer → Lexer
  | 0, lx => lx
  | n + 1, lx => afterCalls n (getNextToken lx).2

/-- The line of `main.cpp` of the one `return` statement that builds a token
of the given kind (the value of `std::source_location::current()` there); 0 for
the two kinds, `Slash` and `Unexpected`, that no `return` statement builds. -/
def returnSite : TokenType → SourceLocation
  | .End => ⟨73⟩
  | .Number => ⟨138⟩
  | .Keyword => ⟨148⟩
  | .Boolean => ⟨151⟩
  | .DataType => ⟨154⟩
  | .Identifier => ⟨156⟩
  | .Comment => ⟨165⟩
  | .Plus => ⟨172⟩
  | .Minus => ⟨174⟩
  | .Multiply => ⟨176⟩
  | .Divide => ⟨178⟩
  | .Modulus => ⟨180⟩
  | .Assign => ⟨182⟩
  | .LeftParenthesis => ⟨184⟩
  | .LeftBrace => ⟨186⟩
  | .LeftBracket => ⟨188⟩
  | .RightParenthesis => ⟨190⟩
  | .RightBrace => ⟨192⟩
  | .RightBracket => ⟨194⟩
  | .Semicolon => ⟨196⟩
  | .Colon => ⟨198⟩
  | .Dot => ⟨200⟩
  | .Comma => ⟨202⟩
  | .Backslash => ⟨204⟩
  | .SingleQuote => ⟨206⟩
  | .DoubleQuote => ⟨208⟩
  | .QuestionMark => ⟨210⟩
  | .ExclamationMark => ⟨212⟩
  | .DollarSign => ⟨214⟩
  | .Ampersand => ⟨216⟩
  | .VerticalBar => ⟨218⟩
  | .AtSign => ⟨220⟩
  | .Caret => ⟨222⟩
  | .LessThan => ⟨224⟩
  | .GreaterThan => ⟨226⟩
  | .Slash => ⟨0⟩
  | .Unexpected => ⟨0⟩

/-- The position in the input buffer as the specification counts it: the
1-based (line, column) of the cursor, where each newline before the cursor
starts a new line at column 1 and every other character moves one column on. -/
def bufferPosition (input : List Char) (cursor : Nat) : Nat × Nat :=
  (input.take cursor).foldl
    (fun lc ch => if ch = '\n' then (lc.1 + 1, 1) else (lc.1, lc.2 + 1)) (1, 1)

/-- The raw string literal `input` of `main` (main.cpp, lines 234-245). -/
def demoInput : List Char :=
  ("\n" ++
    "    include <iostream>\n" ++
    "    # The main function.\n" ++
    "    int main() \x7b\n" ++
    "        std::cout << \"Hello, World!\" << std::endl;\n" ++
    "        string PI = \"3.1415\";\n" ++
    "        boolean a = true;\n" ++
    "        int x = 938649;\n" ++
    "        char chr = \x2732\x27; # Add code here.\n" ++
    "        return 0;\n" ++
    "    \x7d\n" ++
    "    ").toList

/-- The lexemes of the tokens other than `End`, joined with one newline between
consecutive lexemes. -/
def relexInput (tokens : List Token) : List Char :=
  List.intercalate ['\n'] ((tokens.filter (fun t => decide (t.type ≠ .End))).map Token.lexeme)

/-! ## The scanning loops, in terms of `takeWhile` and `dropWhile` -/

theorem drop_takeWhile_length (p : Char → Bool) (l : List Char) :
    l.drop (l.takeWhile p).length = l.dropWhile p := by
  induction l with
  | nil => rfl
  | cons a l ih =>
    by_cases h : p a = true
    · simp [List.takeWhile_cons, List.dropWhile_cons, h, ih]
    · simp [List.takeWhile_cons, List.dropWhile_cons, h]

theorem take_takeWhile_length (p : Char → Bool) (l : List Char) :
    l.take (l.takeWhile p).length = l.takeWhile p := by
  induction l with
  | nil => rfl
  | cons a l ih =>
    by_cases h : p a = true
    · simp [List.takeWhile_cons, h, ih]
    · simp [List.takeWhile_cons, h]

/-- With at least as much fuel as there are characters left, the loop stops
after the longest run of characters satisfying `p`. -/
theorem advanceWhile_eq (p : Char → Bool) (input : List Char) :
    ∀ fuel pos, input.length - pos ≤ fuel →
      advanceWhile p input fuel pos = pos + ((input.drop pos).takeWhile p).length := by
  intro fuel
  induction fuel with
  | zero =>
    intro pos h
    have hle : input.length ≤ pos := by omega
    simp [advanceWhile, List.drop_eq_nil_of_le hle]
  | succ n ih =>
    intro pos h
    unfold advanceWhile
    by_cases hlt : pos < input.length
    · rw [List.getElem?_eq_getElem hlt, List.drop_eq_getElem_cons hlt]
      by_cases hp : p input[pos] = true
      · simp only [hp, if_true, List.takeWhile_cons, List.length_cons]
        rw [ih (pos + 1) (by omega)]
        omega
      · simp [hp, List.takeWhile_cons]
    · have hle : input.length ≤ pos := by omega
      simp [List.getElem?_eq_none hle, List.drop_eq_nil_of_le hle]

/-- The cursor a scanning loop of the lexer ends at. -/
theorem scan_position (p : Char → Bool) (lx : Lexer) :
    advanceWhile p lx.input_ (lx.input_.length - lx.position_) lx.position_ =
      lx.position_ + (lx.rest.takeWhile p).length :=
  advanceWhile_eq p lx.input_ _ _ (Nat.le_refl _)

/-- The loops end because their condition is false, not because the bound on the
number of iterations is reached: at the final cursor the input is exhausted or
the character there fails `p`. -/
theorem advanceWhile_stops (p : Char → Bool) (input : List Char) (pos : Nat) (c : Char)
    (h : input[advanceWhile p input (input.length - pos) pos]? = some c) : p c = false := by
  rw [advanceWhile_eq p input _ _ (Nat.le_refl _), ← List.head?_drop, ← List.drop_drop,
    drop_takeWhile_length] at h
  have := List.head?_dropWhile_not p (input.drop pos)
  rw [h] at this
  simpa using this

/-- What is left after a scanning loop. -/
theorem scan_rest (p : Char → Bool) (lx : Lexer) :
    lx.input_.drop (lx.position_ + (lx.rest.takeWhile p).length) = lx.rest.dropWhile p := by
  rw [← List.drop_drop]
  exact drop_takeWhile_length p _

/-- The lexeme a scanning loop cuts out. -/
theorem scan_substr (p : Char → Bool) (lx : Lexer) :
    substr lx.input_ lx.position_ (lx.position_ + (lx.rest.takeWhile p).length - lx.position_) =
      lx.rest.takeWhile p := by
  rw [Nat.add_sub_cancel_left]
  exact take_takeWhile_length p _

/-! ## `getNextToken`, case by case -/

theorem skipWhitespace_eq (lx : Lexer) : skipWhitespace lx = ⟨lx.input_, lx.tokenStart⟩ := by
  simp [skipWhitespace, scan_position, Lexer.tokenStart]

theorem rest_tokenStart (lx : Lexer) : (Lexer.mk lx.input_ lx.tokenStart).rest = lx.unskipped :=
  scan_rest isspace lx

theorem getElem?_tokenStart (lx : Lexer) : lx.input_[lx.tokenStart]? = firstNonWhitespace lx := by
  rw [firstNonWhitespace, ← rest_tokenStart, Lexer.rest, List.head?_drop]

theorem lexNumber_eq (lx : Lexer) :
    lexNumber lx = (⟨.Number, lx.rest.takeWhile numberChar, ⟨138⟩⟩,
      ⟨lx.input_, lx.position_ + (lx.rest.takeWhile numberChar).length⟩) := by
  simp only [lexNumber, scan_position, scan_substr]

theorem lexComment_eq (lx : Lexer) :
    lexComment lx = (⟨.Comment, lx.rest.takeWhile commentChar, ⟨165⟩⟩,
      ⟨lx.input_, lx.position_ + (lx.rest.takeWhile commentChar).length⟩) := by
  simp only [lexComment, scan_position, scan_substr]

theorem lexIdentifierOrKeyword_lexeme (lx : Lexer) :
    (lexIdentifierOrKeyword lx).1.lexeme = lx.rest.takeWhile identifierChar := by
  simp only [lexIdentifierOrKeyword, scan_position, scan_substr]
  split
  · rfl
  · split
    · rfl
    · split <;> rfl

theorem lexIdentifierOrKeyword_state (lx : Lexer) :
    (lexIdentifierOrKeyword lx).2 =
      ⟨lx.input_, lx.position_ + (lx.rest.takeWhile identifierChar).length⟩ := by
  simp only [lexIdentifierOrKeyword, scan_position]
  split
  · rfl
  · split
    · rfl
    · split <;> rfl

theorem getNextToken_end (lx : Lexer) (h : firstNonWhitespace lx = none) :
    getNextToken lx = (.ok ⟨.End, [], ⟨73⟩⟩, ⟨lx.input_, lx.tokenStart⟩) := by
  simp [getNextToken, skipWhitespace_eq, getElem?_tokenStart, h]

theorem getNextToken_number (lx : Lexer) (c : Char) (h : firstNonWhitespace lx = some c)
    (hd : isdigit c = true) :
    getNextToken lx = (.ok ⟨.Number, lx.unskipped.takeWhile numberChar, ⟨138⟩⟩,
      ⟨lx.input_, lx.tokenStart + (lx.unskipped.takeWhile numberChar).length⟩) := by
  simp [getNextToken, skipWhitespace_eq, getElem?_tokenStart, h, hd, lexNumber_eq,
    rest_tokenStart]

theorem getNextToken_identifier (lx : Lexer) (c : Char) (h : firstNonWhitespace lx = some c)
    (hd : isdigit c = false) (ha : isalpha c = true ∨ c = '_') :
    getNextToken lx = (.ok (lexIdentifierOrKeyword ⟨lx.input_, lx.tokenStart⟩).1,
      ⟨lx.input_, lx.tokenStart + (lx.unskipped.takeWhile identifierChar).length⟩) := by
  have ha1 : (isalpha c || c == '_') = true := by
    rcases ha with ha | ha <;> simp [ha]
  simp [getNextToken, skipWhitespace_eq, getElem?_tokenStart, h, hd, ha1,
    lexIdentifierOrKeyword_state, rest_tokenStart]

theorem getNextToken_comment (lx : Lexer) (h : firstNonWhitespace lx = some '#') :
    getNextToken lx = (.ok ⟨.Comment, lx.unskipped.takeWhile commentChar, ⟨165⟩⟩,
      ⟨lx.input_, lx.tokenStart + (lx.unskipped.takeWhile commentChar).length⟩) := by
  have h1 : isdigit '#' = false := by decide
  have h2 : isalpha '#' = false := by decide
  simp [getNextToken, skipWhitespace_eq, getElem?_tokenStart, h, h1, h2, lexComment_eq,
    rest_tokenStart]

theorem getNextToken_operator (lx : Lexer) (c : Char) (h : firstNonWhitespace lx = some c)
    (hd : isdigit c = false) (ha : isalpha c = false) (hu : c ≠ '_') (hc : c ≠ '#') :
    getNextToken lx = (operatorSwitch c, ⟨lx.input_, lx.tokenStart + 1⟩) := by
  simp [getNextToken, skipWhitespace_eq, getElem?_tokenStart, h, hd, ha, hu, hc,
    createOperatorToken]

/-! ## The operator switch against the catalogue -/

theorem operatorSwitch_of_mem (c : Char) (k : TokenType) (h : (c, k) ∈ operatorCatalogue) :
    ∃ loc, operatorSwitch c = .ok ⟨k, [c], loc⟩ := by
  simp only [operatorCatalogue, List.mem_cons, Prod.mk.injEq, List.mem_singleton,
    List.not_mem_nil, or_false] at h
  rcases h with h | h | h | h | h | h | h | h | h | h | h | h | h | h | h | h | h | h | h | h |
    h | h | h | h | h | h | h | h <;> obtain ⟨rfl, rfl⟩ := h <;> exact ⟨_, rfl⟩

theorem operatorSwitch_of_not_mem (c : Char) (h : c ∉ operatorChars) :
    operatorSwitch c = .error ("Unexpected character: " ++ String.singleton c) := by
  simp only [operatorChars, operatorCatalogue, List.map_cons, List.map_nil, List.mem_cons,
    List.not_mem_nil, or_false, not_or] at h
  simp [operatorSwitch, h]

theorem operatorCatalogue_kind (c : Char) (k : TokenType) (h : (c, k) ∈ operatorCatalogue) :
    k ≠ .End ∧ k ≠ .Unexpected ∧ k ≠ .Slash := by
  simp only [operatorCatalogue, List.mem_cons, Prod.mk.injEq, List.mem_singleton,
    List.not_mem_nil, or_false] at h
  rcases h with h | h | h | h | h | h | h | h | h | h | h | h | h | h | h | h | h | h | h | h |
    h | h | h | h | h | h | h | h <;> obtain ⟨rfl, rfl⟩ := h <;> decide

/-- The catalogue lists 28 characters, no character twice. -/
theorem operatorChars_size : operatorChars.length = 28 ∧ operatorChars.Nodup := by
  decide

theorem mem_operatorChars_iff (c : Char) : c ∈ operatorChars ↔ ∃ k, (c, k) ∈ operatorCatalogue := by
  simp [operatorChars]

theorem operatorChars_unclassified (c : Char) (h : c ∈ operatorChars) :
    isdigit c = false ∧ isalpha c = false ∧ c ≠ '_' ∧ c ≠ '#' ∧ isspace c = false := by
  simp only [operatorChars, operatorCatalogue, List.map_cons, List.map_nil, List.mem_cons,
    List.not_mem_nil, or_false] at h
  rcases h with h | h | h | h | h | h | h | h | h | h | h | h | h | h | h | h | h | h | h | h |
    h | h | h | h | h | h | h | h <;> subst h <;> decide

/-! ## The identifier scan against the classification tables -/

/-- Looking a word up in a table all of whose entries carry the same kind. -/
theorem lookup_const (v : TokenType) (w : List Char) :
    ∀ table : List (List Char × TokenType), (∀ e ∈ table, e.2 = v) →
      table.lookup w = if w ∈ table.map Prod.fst then some v else none := by
  intro table
  induction table with
  | nil => intro _; rfl
  | cons e table ih =>
    intro h
    obtain ⟨a, b⟩ := e
    have hb : b = v := h (a, b) (List.mem_cons_self _ _)
    have ih1 := ih (fun e he => h e (List.mem_cons_of_mem _ he))
    by_cases hw : w = a
    · subst hw
      simp only [List.lookup_cons, beq_self_eq_true, List.map_cons, List.mem_cons, true_or,
        if_true, hb]
    · have hne : (w == a) = false := by simpa using hw
      simp only [List.lookup_cons, hne, List.map_cons, List.mem_cons, hw, false_or, ih1]

theorem lexIdentifierOrKeyword_type (lx : Lexer) :
    (lexIdentifierOrKeyword lx).1.type = wordKind (lexIdentifierOrKeyword lx).1.lexeme := by
  have hk := lookup_const .Keyword (lx.rest.takeWhile identifierChar) keywords (by decide)
  have hb := lookup_const .Boolean (lx.rest.takeWhile identifierChar) booleans (by decide)
  have hd := lookup_const .DataType (lx.rest.takeWhile identifierChar) data_types (by decide)
  have e1 : keywords.map Prod.fst = ["if", "else", "switch", "case", "while", "for", "break",
    "continue", "return", "include"].map String.toList := by decide
  have e2 : booleans.map Prod.fst = ["true", "false"].map String.toList := by decide
  have e3 : data_types.map Prod.fst = ["int", "string", "char", "boolean"].map String.toList := by
    decide
  rw [e1] at hk
  rw [e2] at hb
  rw [e3] at hd
  rw [lexIdentifierOrKeyword_lexeme]
  simp only [lexIdentifierOrKeyword, scan_position, scan_substr, hk, hb, hd, wordKind]
  by_cases h1 : lx.rest.takeWhile identifierChar ∈ ["if", "else", "switch", "case", "while",
    "for", "break", "continue", "return", "include"].map String.toList
  · simp only [h1, if_true]
  · simp only [h1, if_false]
    by_cases h2 : lx.rest.takeWhile identifierChar ∈ ["true", "false"].map String.toList
    · simp only [h2, if_true]
    · simp only [h2, if_false]
      by_cases h3 : lx.rest.takeWhile identifierChar ∈
        ["int", "string", "char", "boolean"].map String.toList
      · simp only [h3, if_true]
      · simp only [h3, if_false]

theorem wordKind_ne_End (w : List Char) : wordKind w ≠ .End := by
  unfold wordKind
  split
  · decide
  · split
    · decide
    · split <;> decide

/-! ## Every call: end of input, a token, or a throw -/

theorem unskipped_eq_cons (lx : Lexer) (c : Char) (h : firstNonWhitespace lx = some c) :
    ∃ tl, lx.unskipped = c :: tl := by
  unfold firstNonWhitespace at h
  cases hu : lx.unskipped with
  | nil => simp [hu] at h
  | cons a tl =>
    rw [hu] at h
    simp only [List.head?_cons, Option.some.injEq] at h
    exact ⟨tl, by rw [h]⟩

theorem tokenStart_lt (lx : Lexer) (c : Char) (h : firstNonWhitespace lx = some c) :
    lx.tokenStart < lx.input_.length := by
  rw [← getElem?_tokenStart] at h
  by_contra hge
  rw [List.getElem?_eq_none (by omega)] at h
  cases h

theorem position_le_tokenStart (lx : Lexer) : lx.position_ ≤ lx.tokenStart := by
  unfold Lexer.tokenStart
  omega

theorem length_unskipped (lx : Lexer) :
    lx.unskipped.length = lx.input_.length - lx.tokenStart := by
  rw [← rest_tokenStart, Lexer.rest, List.length_drop]

/-- A run that starts with a character satisfying `p` is not empty and does not
go past the end of the input. -/
theorem run_bounds (p : Char → Bool) (lx : Lexer) (c : Char)
    (h : firstNonWhitespace lx = some c) (hp : p c = true) :
    0 < (lx.unskipped.takeWhile p).length ∧
      lx.tokenStart + (lx.unskipped.takeWhile p).length ≤ lx.input_.length := by
  have hlen := length_unskipped lx
  have hle := (List.takeWhile_sublist (l := lx.unskipped) p).length_le
  have hlt := tokenStart_lt lx c h
  obtain ⟨tl, hu⟩ := unskipped_eq_cons lx c h
  refine ⟨?_, by omega⟩
  rw [hu, List.takeWhile_cons, if_pos hp]
  simp

theorem firstNonWhitespace_not_space (lx : Lexer) (c : Char)
    (h : firstNonWhitespace lx = some c) : isspace c = false := by
  have := List.head?_dropWhile_not isspace lx.rest
  unfold firstNonWhitespace Lexer.unskipped at h
  rw [h] at this
  simpa using this

theorem firstNonWhitespace_mem (lx : Lexer) (c : Char)
    (h : firstNonWhitespace lx = some c) : c ∈ lx.input_ := by
  rw [← getElem?_tokenStart] at h
  exact List.getElem?_mem h

theorem isdigit_not_isalpha (c : Char) (h : isdigit c = true) : isalpha c = false := by
  simp only [isdigit, Bool.and_eq_true, decide_eq_true_eq] at h
  simp only [isalpha, Bool.or_eq_false_iff, Bool.and_eq_false_iff, decide_eq_false_iff_not]
  omega

theorem identifierStart_not_isdigit (c : Char) (h : isalpha c = true ∨ c = '_') :
    isdigit c = false := by
  rcases h with h | h
  · cases hd : isdigit c with
    | false => rfl
    | true => rw [isdigit_not_isalpha c hd] at h; cases h
  · subst h; decide

theorem getNextToken_cases (lx : Lexer) :
    (firstNonWhitespace lx = none ∧
      getNextToken lx = (.ok ⟨.End, [], ⟨73⟩⟩, ⟨lx.input_, lx.tokenStart⟩)) ∨
    (∃ c t, firstNonWhitespace lx = some c ∧ recognised c = true ∧ t.type ≠ .End ∧
      0 < t.lexeme.length ∧ lx.tokenStart + t.lexeme.length ≤ lx.input_.length ∧
      getNextToken lx = (.ok t, ⟨lx.input_, lx.tokenStart + t.lexeme.length⟩)) ∨
    (∃ c, firstNonWhitespace lx = some c ∧ recognised c = false ∧
      getNextToken lx = (.error ("Unexpected character: " ++ String.singleton c),
        ⟨lx.input_, lx.tokenStart + 1⟩)) := by
  cases h : firstNonWhitespace lx with
  | none => exact Or.inl ⟨rfl, getNextToken_end lx h⟩
  | some c =>
    right
    by_cases hd : isdigit c = true
    · left
      have hb := run_bounds numberChar lx c h (by simp [numberChar, hd])
      exact ⟨c, _, rfl, by simp [recognised, hd], by simp, hb.1, hb.2,
        getNextToken_number lx c h hd⟩
    · have hd0 : isdigit c = false := by simpa using hd
      by_cases ha : isalpha c = true ∨ c = '_'
      · left
        have hp : identifierChar c = true := by
          rcases ha with ha | ha
          · simp [identifierChar, isalnum, ha]
          · simp [identifierChar, ha]
        have hb := run_bounds identifierChar lx c h hp
        have hl := lexIdentifierOrKeyword_lexeme ⟨lx.input_, lx.tokenStart⟩
        rw [rest_tokenStart] at hl
        have ht := lexIdentifierOrKeyword_type ⟨lx.input_, lx.tokenStart⟩
        refine ⟨c, (lexIdentifierOrKeyword ⟨lx.input_, lx.tokenStart⟩).1, rfl, ?_, ?_, ?_, ?_, ?_⟩
        · rcases ha with ha | ha <;> simp [recognised, ha]
        · rw [ht]; exact wordKind_ne_End _
        · rw [hl]; exact hb.1
        · rw [hl]; exact hb.2
        · rw [hl]; exact getNextToken_identifier lx c h hd0 ha
      · have ha0 : isalpha c = false := by
          cases hx : isalpha c with
          | false => rfl
          | true => exact absurd (Or.inl hx) ha
        have hu : c ≠ '_' := fun hx => ha (Or.inr hx)
        by_cases hc : c = '#'
        · left
          subst hc
          have hb := run_bounds commentChar lx '#' h (by decide)
          exact ⟨'#', _, rfl, by decide, by simp, hb.1, hb.2, getNextToken_comment lx h⟩
        · have hop := getNextToken_operator lx c h hd0 ha0 hu hc
          by_cases hm : c ∈ operatorChars
          · left
            obtain ⟨k, hk⟩ := (mem_operatorChars_iff c).1 hm
            obtain ⟨loc, hs⟩ := operatorSwitch_of_mem c k hk
            have hlt := tokenStart_lt lx c h
            refine ⟨c, ⟨k, [c], loc⟩, rfl, ?_, ?_, by simp, by simp; omega, ?_⟩
            · simp [recognised, hm]
            · exact (operatorCatalogue_kind c k hk).1
            · rw [hop, hs]; rfl
          · right
            refine ⟨c, rfl, ?_, ?_⟩
            · simp [recognised, hd0, ha0, hu, hc, hm]
            · rw [hop, operatorSwitch_of_not_mem c hm]

/-! ## The loop of `main` -/

theorem getLast?_cons_of_getLast? (t e : Token) (ts : List Token) (h : ts.getLast? = some e) :
    (t :: ts).getLast? = some e := by
  cases ts with
  | nil => simp at h
  | cons a l => rw [List.getLast?_cons_cons]; exact h

/-- With more calls allowed than there are characters left, the loop of `main`
ends by itself: on an `End` token, or on a throw for a character that is
neither whitespace nor recognised. -/
theorem tokenize_enough_fuel : ∀ (fuel : Nat) (lx : Lexer),
    lx.input_.length - lx.position_ < fuel →
    (∃ tokens, tokenize fuel lx = .finished tokens ∧
      tokens.getLast? = some ⟨.End, [], ⟨73⟩⟩ ∧
      tokens.length ≤ lx.input_.length - lx.position_ + 1) ∨
    (∃ tokens c, tokenize fuel lx =
        .thrown tokens ("Unexpected character: " ++ String.singleton c) ∧
      c ∈ lx.input_ ∧ isspace c = false ∧ recognised c = false) := by
  intro fuel
  induction fuel with
  | zero => intro lx h; omega
  | succ n ih =>
    intro lx h
    rcases getNextToken_cases lx with ⟨_, hg⟩ | ⟨c, t, hc, _, ht, hpos, hle, hg⟩ | ⟨c, hc, hr, hg⟩
    · left
      exact ⟨[⟨.End, [], ⟨73⟩⟩], by simp [tokenize, hg], rfl, by simp⟩
    · have hlt := tokenStart_lt lx c hc
      have hps := position_le_tokenStart lx
      have hstep : tokenize (n + 1) lx =
          (tokenize n ⟨lx.input_, lx.tokenStart + t.lexeme.length⟩).cons t := by
        simp [tokenize, hg, ht]
      rw [hstep]
      rcases ih ⟨lx.input_, lx.tokenStart + t.lexeme.length⟩ (by simp only; omega) with
        ⟨ts, h1, h2, h3⟩ | ⟨ts, d, h1, h2, h3, h4⟩
      · left
        refine ⟨t :: ts, by rw [h1]; rfl, getLast?_cons_of_getLast? _ _ _ h2, ?_⟩
        simp only [List.length_cons] at h3 ⊢
        omega
      · right
        exact ⟨t :: ts, d, by rw [h1]; rfl, h2, h3, h4⟩
    · right
      exact ⟨[], c, by simp [tokenize, hg], firstNonWhitespace_mem lx c hc,
        firstNonWhitespace_not_space lx c hc, hr⟩

/-! ## C1: totality -/

/-- C1, as stated, fails: on the input consisting of one backtick the first call
of `getNextToken` throws, so no number of calls reaches `End`. -/
theorem totality_fails_on_backtick :
    getNextToken (Lexer.new "`".toList) =
      (.error "Unexpected character: `", ⟨"`".toList, 1⟩) ∧
    ¬ ∃ fuel tokens, tokenize fuel (Lexer.new "`".toList) = .finished tokens := by
  refine ⟨by rfl, ?_⟩
  rintro ⟨fuel, tokens, h⟩
  cases fuel with
  | zero => simp [tokenize] at h
  | succ n =>
    have hg : getNextToken (Lexer.new "`".toList) =
      (.error "Unexpected character: `", ⟨"`".toList, 1⟩) := by rfl
    rw [tokenize, hg] at h
    cases h

/-- C1, amended: for every input, calling `getNextToken` repeatedly from
cursor 0 stops within `length + 1` calls, either on an `End` token that ends a
run of successful calls, or on a call that throws for a character of the input
that is neither whitespace nor accepted by a classification rule; it stops on
`End`, with no call failing, whenever every character of the input is
whitespace or accepted by a classification rule. -/
theorem tokenize_terminates (input : List Char) :
    ((∃ tokens, tokenize (input.length + 1) (Lexer.new input) = .finished tokens ∧
        tokens.getLast? = some ⟨.End, [], ⟨73⟩⟩ ∧ tokens.length ≤ input.length + 1) ∨
      (∃ tokens c, tokenize (input.length + 1) (Lexer.new input) =
          .thrown tokens ("Unexpected character: " ++ String.singleton c) ∧
        c ∈ input ∧ isspace c = false ∧ recognised c = false)) ∧
    ((∀ c ∈ input, isspace c = true ∨ recognised c = true) →
      ∃ tokens, tokenize (input.length + 1) (Lexer.new input) = .finished tokens ∧
        tokens.getLast? = some ⟨.End, [], ⟨73⟩⟩) := by
  have h := tokenize_enough_fuel (input.length + 1) (Lexer.new input)
    (by simp [Lexer.new])
  simp only [Lexer.new, Nat.sub_zero] at h
  refine ⟨h, fun hall => ?_⟩
  rcases h with ⟨ts, h1, h2, _⟩ | ⟨ts, c, _, hm, hs, hr⟩
  · exact ⟨ts, h1, h2⟩
  · rcases hall c hm with hx | hx
    · rw [hs] at hx; cases hx
    · rw [hr] at hx; cases hx

/-- C1, amended, on the input `a+1`: all three characters are accepted, and the
scan ends on `End`. -/
theorem tokenize_terminates_witness :
    (∀ c ∈ "a+1".toList, isspace c = true ∨ recognised c = true) ∧
    ∃ tokens, tokenize ("a+1".toList.length + 1) (Lexer.new "a+1".toList) = .finished tokens ∧
      tokens.getLast? = some ⟨.End, [], ⟨73⟩⟩ :=
  ⟨by decide, (tokenize_terminates "a+1".toList).2 (by decide)⟩

/-! ## C2: an unrecognised character -/

/-- C2, as stated, fails: on the input blank, backtick, `x` the first
non-whitespace character is the backtick, which no rule accepts, and
`getNextToken` returns no token at all (so none of kind `Unexpected`): it
throws. -/
theorem unexpected_token_not_returned :
    firstNonWhitespace (Lexer.new " `x".toList) = some (Char.ofNat 96) ∧
    recognised (Char.ofNat 96) = false ∧
    (getNextToken (Lexer.new " `x".toList)).1 = .error "Unexpected character: `" ∧
    ¬ ∃ t, (getNextToken (Lexer.new " `x".toList)).1 = .ok t := by
  refine ⟨by rfl, by decide, by rfl, ?_⟩
  rintro ⟨t, h⟩
  have hg : (getNextToken (Lexer.new " `x".toList)).1 = .error "Unexpected character: `" := by
    rfl
  rw [hg] at h
  cases h

/-- C2, amended: when the first non-whitespace character `c` at or after the
cursor is accepted by no classification rule, `getNextToken` returns no token:
it throws a runtime error with the message `Unexpected character: ` followed by
`c`, and the cursor has been moved just past `c` when it throws, so that what is
left to scan is what followed `c`. -/
theorem unrecognised_character_throws (lx : Lexer) (c : Char)
    (h : firstNonWhitespace lx = some c) (hr : recognised c = false) :
    getNextToken lx = (.error ("Unexpected character: " ++ String.singleton c),
      ⟨lx.input_, lx.tokenStart + 1⟩) ∧
    (getNextToken lx).2.rest = lx.unskipped.tail := by
  have hg : getNextToken lx = (.error ("Unexpected character: " ++ String.singleton c),
      ⟨lx.input_, lx.tokenStart + 1⟩) := by
    rcases getNextToken_cases lx with ⟨h0, _⟩ | ⟨d, t, hd, hrd, _⟩ | ⟨d, hd, _, hg⟩
    · rw [h] at h0; cases h0
    · rw [h] at hd
      cases hd
      rw [hr] at hrd; cases hrd
    · rw [h] at hd
      cases hd
      exact hg
  refine ⟨hg, ?_⟩
  rw [hg, ← rest_tokenStart]
  simp [Lexer.rest]

/-- C2, amended, on the input blank, backtick, `x`. -/
theorem unrecognised_character_throws_witness :
    getNextToken (Lexer.new " `x".toList) =
      (.error ("Unexpected character: " ++ String.singleton (Char.ofNat 96)),
        ⟨(Lexer.new " `x".toList).input_, (Lexer.new " `x".toList).tokenStart + 1⟩) ∧
    (getNextToken (Lexer.new " `x".toList)).2.rest = (Lexer.new " `x".toList).unskipped.tail :=
  unrecognised_character_throws (Lexer.new " `x".toList) (Char.ofNat 96) (by rfl) (by decide)

/-! ## C3: when a call fails -/

/-- C3: `getNextToken` fails exactly when there is a first non-whitespace
character at or after the cursor and it is not a digit, not a letter, not `_`,
not `#` and not one of the 28 operator and punctuation characters; it returns
a token exactly when that is not so. -/
theorem getNextToken_fails_iff (lx : Lexer) :
    ((∃ what, (getNextToken lx).1 = .error what) ↔
      ∃ c, firstNonWhitespace lx = some c ∧ isdigit c = false ∧ isalpha c = false ∧
        c ≠ '_' ∧ c ≠ '#' ∧ c ∉ operatorChars) ∧
    ((∃ t, (getNextToken lx).1 = .ok t) ↔
      ¬ ∃ c, firstNonWhitespace lx = some c ∧ isdigit c = false ∧ isalpha c = false ∧
        c ≠ '_' ∧ c ≠ '#' ∧ c ∉ operatorChars) := by
  have hrec : ∀ c, recognised c = false ↔ (isdigit c = false ∧ isalpha c = false ∧
      c ≠ '_' ∧ c ≠ '#' ∧ c ∉ operatorChars) := by
    intro c
    simp [recognised, and_assoc]
  rcases getNextToken_cases lx with ⟨h0, hg⟩ | ⟨d, t, hd, hrd, _, _, _, hg⟩ | ⟨d, hd, hrd, hg⟩
  · have hno : ¬ ∃ c, firstNonWhitespace lx = some c ∧ isdigit c = false ∧
        isalpha c = false ∧ c ≠ '_' ∧ c ≠ '#' ∧ c ∉ operatorChars := by
      rintro ⟨c, hc, _⟩
      rw [h0] at hc; cases hc
    refine ⟨⟨?_, fun hx => absurd hx hno⟩, ⟨fun _ => hno, fun _ => ⟨_, by rw [hg]⟩⟩⟩
    rintro ⟨w, hw⟩
    rw [hg] at hw; cases hw
  · have hno : ¬ ∃ c, firstNonWhitespace lx = some c ∧ isdigit c = false ∧
        isalpha c = false ∧ c ≠ '_' ∧ c ≠ '#' ∧ c ∉ operatorChars := by
      rintro ⟨c, hc, hrest⟩
      rw [hd] at hc
      cases hc
      rw [(hrec d).2 hrest] at hrd; cases hrd
    refine ⟨⟨?_, fun hx => absurd hx hno⟩, ⟨fun _ => hno, fun _ => ⟨_, by rw [hg]⟩⟩⟩
    rintro ⟨w, hw⟩
    rw [hg] at hw; cases hw
  · have hyes : ∃ c, firstNonWhitespace lx = some c ∧ isdigit c = false ∧
        isalpha c = false ∧ c ≠ '_' ∧ c ≠ '#' ∧ c ∉ operatorChars :=
      ⟨d, hd, (hrec d).1 hrd⟩
    refine ⟨⟨fun _ => hyes, fun _ => ⟨_, by rw [hg]⟩⟩, ⟨?_, fun hx => absurd hyes hx⟩⟩
    rintro ⟨t, ht⟩
    rw [hg] at ht; cases ht

/-! ## C4: `End` is returned for good -/

theorem afterCalls_fixed (lx : Lexer) (out : Except String Token)
    (h : getNextToken lx = (out, lx)) : ∀ n, afterCalls n lx = lx := by
  intro n
  induction n with
  | zero => rfl
  | succ n ih => rw [afterCalls, h]; exact ih

/-- C4: once a call of `getNextToken` has returned `End`, every later call on
the same lexer returns the very same token (kind `End`, empty lexeme, same
location) and leaves the lexer as it is; none fails. -/
theorem end_is_idempotent (lx lx1 : Lexer) (t : Token)
    (h : getNextToken lx = (.ok t, lx1)) (hEnd : t.type = .End) :
    t.lexeme = [] ∧ ∀ n, getNextToken (afterCalls n lx1) = (.ok t, lx1) := by
  rcases getNextToken_cases lx with ⟨h0, hg⟩ | ⟨d, s, _, _, hs, _, _, hg⟩ | ⟨d, _, _, hg⟩
  · rw [hg] at h
    simp only [Prod.mk.injEq, Except.ok.injEq] at h
    obtain ⟨ht, hl⟩ := h
    subst ht
    have hu : lx.unskipped = [] := by
      unfold firstNonWhitespace at h0
      simpa using h0
    have hrest : lx1.rest = [] := by rw [← hl, rest_tokenStart, hu]
    have hfix : getNextToken lx1 = (.ok ⟨.End, [], ⟨73⟩⟩, lx1) := by
      have h1 : firstNonWhitespace lx1 = none := by
        simp [firstNonWhitespace, Lexer.unskipped, hrest]
      rw [getNextToken_end lx1 h1]
      have : lx1.tokenStart = lx1.position_ := by simp [Lexer.tokenStart, hrest]
      rw [this]
    refine ⟨rfl, fun n => ?_⟩
    rw [afterCalls_fixed lx1 _ hfix n]
    exact hfix
  · rw [hg] at h
    simp only [Prod.mk.injEq, Except.ok.injEq] at h
    rw [h.1] at hs
    exact absurd hEnd hs
  · rw [hg] at h
    simp at h

/-- C4 on the input `x` followed by a blank, after the first call: the second
call returns `End`, and so does every later one. -/
theorem end_is_idempotent_witness :
    (⟨.End, [], ⟨73⟩⟩ : Token).lexeme = [] ∧
    ∀ n, getNextToken (afterCalls n ⟨"x ".toList, 2⟩) =
      (.ok ⟨.End, [], ⟨73⟩⟩, ⟨"x ".toList, 2⟩) :=
  end_is_idempotent ⟨"x ".toList, 1⟩ ⟨"x ".toList, 2⟩ ⟨.End, [], ⟨73⟩⟩ (by rfl) rfl

/-! ## C5: a concrete scan -/

/-- C5: scanning `int x = 5;` from cursor 0 takes six calls, none of which
fails, and yields DataType `int`, Identifier `x`, Assign `=`, Number `5`,
Semicolon `;`, End with the empty lexeme. -/
theorem scan_int_x_assign_5 :
    ∃ tokens, tokenize 6 (Lexer.new "int x = 5;".toList) = .finished tokens ∧
      kindsAndLexemes tokens =
        [(.DataType, "int"), (.Identifier, "x"), (.Assign, "="), (.Number, "5"),
          (.Semicolon, ";"), (.End, "")] :=
  ⟨_, rfl, by decide⟩

/-! ## C6: keywords, booleans, data types, identifiers -/

/-- C6: the kind of the token the identifier scan produces is `Keyword` when
its lexeme is one of the ten keywords, else `Boolean` when it is `true` or
`false`, else `DataType` when it is one of the four data-type names, else
`Identifier`; the whole lexeme is compared, case-sensitively: `if` is a
keyword, `ifx` and `If` are identifiers. -/
theorem keyword_precedence (lx : Lexer) :
    (lexIdentifierOrKeyword lx).1.type = wordKind (lexIdentifierOrKeyword lx).1.lexeme ∧
    (getNextToken (Lexer.new "if".toList)).1 = .ok ⟨.Keyword, "if".toList, ⟨148⟩⟩ ∧
    (getNextToken (Lexer.new "ifx".toList)).1 = .ok ⟨.Identifier, "ifx".toList, ⟨156⟩⟩ ∧
    (getNextToken (Lexer.new "If".toList)).1 = .ok ⟨.Identifier, "If".toList, ⟨156⟩⟩ :=
  ⟨lexIdentifierOrKeyword_type lx, by rfl, by rfl, by rfl⟩

/-! ## C7, C8, C9: the three scans take the longest run -/

/-- The run of characters satisfying `p` that starts at the first
non-whitespace character is a slice of the input, every character of which
satisfies `p`, and the character after it, if any, does not. -/
theorem run_spec (p : Char → Bool) (lx : Lexer) :
    lx.unskipped.takeWhile p =
      substr lx.input_ lx.tokenStart (lx.unskipped.takeWhile p).length ∧
    (∀ x ∈ lx.unskipped.takeWhile p, p x = true) ∧
    (∀ x, lx.input_[lx.tokenStart + (lx.unskipped.takeWhile p).length]? = some x →
      p x = false) := by
  refine ⟨?_, fun x hx => (List.mem_takeWhile_imp hx), fun x hx => ?_⟩
  · have := scan_substr p ⟨lx.input_, lx.tokenStart⟩
    rw [rest_tokenStart] at this
    simp only [Nat.add_sub_cancel_left] at this
    exact this.symm
  · have hr := scan_rest p ⟨lx.input_, lx.tokenStart⟩
    rw [rest_tokenStart] at hr
    simp only at hr
    rw [← List.head?_drop, hr] at hx
    have := List.head?_dropWhile_not p lx.unskipped
    rw [hx] at this
    simpa using this

theorem head?_run (p : Char → Bool) (lx : Lexer) (c : Char)
    (h : firstNonWhitespace lx = some c) (hp : p c = true) :
    (lx.unskipped.takeWhile p).head? = some c := by
  obtain ⟨tl, hu⟩ := unskipped_eq_cons lx c h
  rw [hu, List.takeWhile_cons, if_pos hp]
  rfl

/-- C7: when the first non-whitespace character at or after the cursor is a
letter or `_`, the lexeme returned is the longest run of alphanumeric or `_`
characters that starts there: it is the slice of the input that starts at
that character, all its characters are alphanumeric or `_`, the character
after it (if any) is not, and the cursor is left just after it; on `abc123 `
the lexeme is `abc123`. -/
theorem identifier_maximal_munch :
    (∀ (lx : Lexer) (c : Char), firstNonWhitespace lx = some c →
      (isalpha c = true ∨ c = '_') →
      ∃ t, getNextToken lx = (.ok t, ⟨lx.input_, lx.tokenStart + t.lexeme.length⟩) ∧
        t.lexeme = lx.unskipped.takeWhile identifierChar ∧
        t.lexeme = substr lx.input_ lx.tokenStart t.lexeme.length ∧
        t.lexeme.head? = some c ∧
        (∀ x ∈ t.lexeme, isalnum x = true ∨ x = '_') ∧
        (∀ x, lx.input_[lx.tokenStart + t.lexeme.length]? = some x →
          ¬ (isalnum x = true ∨ x = '_'))) ∧
    getNextToken (Lexer.new "abc123 ".toList) =
      (.ok ⟨.Identifier, "abc123".toList, ⟨156⟩⟩, ⟨"abc123 ".toList, 6⟩) := by
  refine ⟨fun lx c h ha => ?_, by rfl⟩
  have hp : identifierChar c = true := by
    rcases ha with ha | ha
    · simp [identifierChar, isalnum, ha]
    · simp [identifierChar, ha]
  have hl := lexIdentifierOrKeyword_lexeme ⟨lx.input_, lx.tokenStart⟩
  rw [rest_tokenStart] at hl
  obtain ⟨h1, h2, h3⟩ := run_spec identifierChar lx
  refine ⟨(lexIdentifierOrKeyword ⟨lx.input_, lx.tokenStart⟩).1, ?_, hl, ?_, ?_, ?_, ?_⟩
  · rw [hl]
    exact getNextToken_identifier lx c h (identifierStart_not_isdigit c ha) ha
  · rw [hl]; exact h1
  · rw [hl]; exact head?_run identifierChar lx c h hp
  · rw [hl]
    intro x hx
    simpa [identifierChar] using h2 x hx
  · rw [hl]
    intro x hx
    simpa [identifierChar] using h3 x hx

/-- C7 on the input blank, `_a1`, `+`: the lexeme is `_a1`. -/
theorem identifier_maximal_munch_witness :
    ∃ t, getNextToken (Lexer.new " _a1+".toList) =
        (.ok t, ⟨" _a1+".toList, (Lexer.new " _a1+".toList).tokenStart + t.lexeme.length⟩) ∧
      t.lexeme = (Lexer.new " _a1+".toList).unskipped.takeWhile identifierChar ∧
      t.lexeme = substr " _a1+".toList (Lexer.new " _a1+".toList).tokenStart t.lexeme.length ∧
      t.lexeme.head? = some '_' ∧
      (∀ x ∈ t.lexeme, isalnum x = true ∨ x = '_') ∧
      (∀ x, " _a1+".toList[(Lexer.new " _a1+".toList).tokenStart + t.lexeme.length]? = some x →
        ¬ (isalnum x = true ∨ x = '_')) :=
  identifier_maximal_munch.1 (Lexer.new " _a1+".toList) '_' (by rfl) (Or.inr rfl)

/-- C8: when the first non-whitespace character at or after the cursor is a
digit, the token returned has kind `Number` and its lexeme is the longest run
of digits and points that starts there, wherever the points fall: it is the
slice of the input that starts at that digit, all its characters are digits
or points, the character after it (if any) is neither, and the cursor is left
just after it; `1.2.3` is one `Number` token followed by `End`. -/
theorem number_maximal_munch :
    (∀ (lx : Lexer) (c : Char), firstNonWhitespace lx = some c → isdigit c = true →
      ∃ t, getNextToken lx = (.ok t, ⟨lx.input_, lx.tokenStart + t.lexeme.length⟩) ∧
        t.type = .Number ∧
        t.lexeme = lx.unskipped.takeWhile numberChar ∧
        t.lexeme = substr lx.input_ lx.tokenStart t.lexeme.length ∧
        t.lexeme.head? = some c ∧
        (∀ x ∈ t.lexeme, isdigit x = true ∨ x = '.') ∧
        (∀ x, lx.input_[lx.tokenStart + t.lexeme.length]? = some x →
          ¬ (isdigit x = true ∨ x = '.'))) ∧
    tokenize 2 (Lexer.new "1.2.3".toList) =
      .finished [⟨.Number, "1.2.3".toList, ⟨138⟩⟩, ⟨.End, [], ⟨73⟩⟩] := by
  refine ⟨fun lx c h hd => ?_, by rfl⟩
  have hp : numberChar c = true := by simp [numberChar, hd]
  obtain ⟨h1, h2, h3⟩ := run_spec numberChar lx
  refine ⟨⟨.Number, lx.unskipped.takeWhile numberChar, ⟨138⟩⟩,
    getNextToken_number lx c h hd, rfl, rfl, h1, head?_run numberChar lx c h hp, ?_, ?_⟩
  · intro x hx
    simpa [numberChar] using h2 x hx
  · intro x hx
    simpa [numberChar] using h3 x hx

/-- C8 on the input `7..x`: the lexeme is `7..`. -/
theorem number_maximal_munch_witness :
    ∃ t, getNextToken (Lexer.new "7..x".toList) =
        (.ok t, ⟨"7..x".toList, (Lexer.new "7..x".toList).tokenStart + t.lexeme.length⟩) ∧
      t.type = .Number ∧
      t.lexeme = (Lexer.new "7..x".toList).unskipped.takeWhile numberChar ∧
      t.lexeme = substr "7..x".toList (Lexer.new "7..x".toList).tokenStart t.lexeme.length ∧
      t.lexeme.head? = some '7' ∧
      (∀ x ∈ t.lexeme, isdigit x = true ∨ x = '.') ∧
      (∀ x, "7..x".toList[(Lexer.new "7..x".toList).tokenStart + t.lexeme.length]? = some x →
        ¬ (isdigit x = true ∨ x = '.')) :=
  number_maximal_munch.1 (Lexer.new "7..x".toList) '7' (by rfl) (by decide)

/-- C9: when the first non-whitespace character at or after the cursor is `#`,
the token returned has kind `Comment`; its lexeme starts with that `#` and is
the slice of the input from there up to, not including, the next newline (or
to the end of the input); it holds no newline, and the cursor is left on the
newline or at the end of the input; `# hello`, newline, `x` is the comment
`# hello` followed by the identifier `x`. -/
theorem comment_extraction :
    (∀ lx : Lexer, firstNonWhitespace lx = some '#' →
      ∃ t, getNextToken lx = (.ok t, ⟨lx.input_, lx.tokenStart + t.lexeme.length⟩) ∧
        t.type = .Comment ∧
        t.lexeme = lx.unskipped.takeWhile (fun x => x != '\n') ∧
        t.lexeme = substr lx.input_ lx.tokenStart t.lexeme.length ∧
        t.lexeme.head? = some '#' ∧
        '\n' ∉ t.lexeme ∧
        (lx.input_[lx.tokenStart + t.lexeme.length]? = none ∨
          lx.input_[lx.tokenStart + t.lexeme.length]? = some '\n')) ∧
    tokenize 3 (Lexer.new "# hello\nx".toList) =
      .finished [⟨.Comment, "# hello".toList, ⟨165⟩⟩, ⟨.Identifier, "x".toList, ⟨156⟩⟩,
        ⟨.End, [], ⟨73⟩⟩] := by
  refine ⟨fun lx h => ?_, by rfl⟩
  obtain ⟨h1, h2, h3⟩ := run_spec commentChar lx
  refine ⟨⟨.Comment, lx.unskipped.takeWhile commentChar, ⟨165⟩⟩,
    getNextToken_comment lx h, rfl, rfl, h1, head?_run commentChar lx '#' h (by decide), ?_, ?_⟩
  · intro hx
    have := h2 _ hx
    simp [commentChar] at this
  · cases hx : lx.input_[lx.tokenStart + (lx.unskipped.takeWhile commentChar).length]? with
    | none => exact Or.inl rfl
    | some x =>
      right
      have := h3 x hx
      simp only [commentChar, bne_eq_false_iff_eq] at this
      simp [this]

/-- C9 on the input `#a`, newline, `b` with the cursor on the `#`. -/
theorem comment_extraction_witness :
    ∃ t, getNextToken (Lexer.new "#a\nb".toList) =
        (.ok t, ⟨"#a\nb".toList, (Lexer.new "#a\nb".toList).tokenStart + t.lexeme.length⟩) ∧
      t.type = .Comment ∧
      t.lexeme = (Lexer.new "#a\nb".toList).unskipped.takeWhile (fun x => x != '\n') ∧
      t.lexeme = substr "#a\nb".toList (Lexer.new "#a\nb".toList).tokenStart t.lexeme.length ∧
      t.lexeme.head? = some '#' ∧
      '\n' ∉ t.lexeme ∧
      ("#a\nb".toList[(Lexer.new "#a\nb".toList).tokenStart + t.lexeme.length]? = none ∨
        "#a\nb".toList[(Lexer.new "#a\nb".toList).tokenStart + t.lexeme.length]? = some '\n') :=
  comment_extraction.1 (Lexer.new "#a\nb".toList) (by rfl)

/-! ## C10: operators and punctuation -/

/-- C10: when one of the 28 operator and punctuation characters is the first
non-whitespace character at or after the cursor, `getNextToken` returns the
kind the catalogue gives that character, with the character alone as lexeme,
and leaves the cursor just after it. -/
theorem operator_table (lx : Lexer) (c : Char) (k : TokenType)
    (hk : (c, k) ∈ operatorCatalogue) (h : firstNonWhitespace lx = some c) :
    ∃ loc, getNextToken lx = (.ok ⟨k, [c], loc⟩, ⟨lx.input_, lx.tokenStart + 1⟩) := by
  obtain ⟨hd, ha, hu, hc, _⟩ := operatorChars_unclassified c ((mem_operatorChars_iff c).2 ⟨k, hk⟩)
  obtain ⟨loc, hs⟩ := operatorSwitch_of_mem c k hk
  exact ⟨loc, by rw [getNextToken_operator lx c h hd ha hu hc, hs]⟩

/-- C10 on the input blank, `^`, `2` with the cursor at 0: `Caret`. -/
theorem operator_table_witness :
    ∃ loc, getNextToken (Lexer.new " ^2".toList) =
      (.ok ⟨.Caret, ['^'], loc⟩, ⟨" ^2".toList, (Lexer.new " ^2".toList).tokenStart + 1⟩) :=
  operator_table (Lexer.new " ^2".toList) '^' .Caret (by decide) (by rfl)

/-! ## Every returned token, in full -/

theorem operatorSwitch_site (c : Char) (k : TokenType) (h : (c, k) ∈ operatorCatalogue) :
    operatorSwitch c = .ok ⟨k, [c], returnSite k⟩ := by
  simp only [operatorCatalogue, List.mem_cons, Prod.mk.injEq, List.mem_singleton,
    List.not_mem_nil, or_false] at h
  rcases h with h | h | h | h | h | h | h | h | h | h | h | h | h | h | h | h | h | h | h | h |
    h | h | h | h | h | h | h | h <;> obtain ⟨rfl, rfl⟩ := h <;> rfl

/-- The token of the identifier scan is a function of the run of identifier
characters at the cursor alone. -/
theorem lexIdentifierOrKeyword_token (lx : Lexer) :
    (lexIdentifierOrKeyword lx).1 =
      ⟨wordKind (lx.rest.takeWhile identifierChar), lx.rest.takeWhile identifierChar,
        returnSite (wordKind (lx.rest.takeWhile identifierChar))⟩ := by
  have hk := lookup_const .Keyword (lx.rest.takeWhile identifierChar) keywords (by decide)
  have hb := lookup_const .Boolean (lx.rest.takeWhile identifierChar) booleans (by decide)
  have hd := lookup_const .DataType (lx.rest.takeWhile identifierChar) data_types (by decide)
  have e1 : keywords.map Prod.fst = ["if", "else", "switch", "case", "while", "for", "break",
    "continue", "return", "include"].map String.toList := by decide
  have e2 : booleans.map Prod.fst = ["true", "false"].map String.toList := by decide
  have e3 : data_types.map Prod.fst = ["int", "string", "char", "boolean"].map String.toList := by
    decide
  rw [e1] at hk
  rw [e2] at hb
  rw [e3] at hd
  simp only [lexIdentifierOrKeyword, scan_position, scan_substr, hk, hb, hd, wordKind]
  by_cases h1 : lx.rest.takeWhile identifierChar ∈ ["if", "else", "switch", "case", "while",
    "for", "break", "continue", "return", "include"].map String.toList
  · simp only [h1, if_true, returnSite]
  · simp only [h1, if_false]
    by_cases h2 : lx.rest.takeWhile identifierChar ∈ ["true", "false"].map String.toList
    · simp only [h2, if_true, returnSite]
    · simp only [h2, if_false]
      by_cases h3 : lx.rest.takeWhile identifierChar ∈
        ["int", "string", "char", "boolean"].map String.toList
      · simp only [h3, if_true, returnSite]
      · simp only [h3, if_false, returnSite]

theorem wordKind_cases (w : List Char) :
    wordKind w = .Keyword ∨ wordKind w = .Boolean ∨ wordKind w = .DataType ∨
      wordKind w = .Identifier := by
  unfold wordKind
  split
  · exact Or.inl rfl
  · split
    · exact Or.inr (Or.inl rfl)
    · split
      · exact Or.inr (Or.inr (Or.inl rfl))
      · exact Or.inr (Or.inr (Or.inr rfl))

/-- What a call of `getNextToken` does, by the first non-whitespace character:
the outcome and the new state in full. -/
theorem getNextToken_shape (lx : Lexer) :
    (lx.unskipped = [] ∧
      getNextToken lx = (.ok ⟨.End, [], ⟨73⟩⟩, ⟨lx.input_, lx.tokenStart⟩)) ∨
    (∃ c, firstNonWhitespace lx = some c ∧ isdigit c = true ∧
      getNextToken lx = (.ok ⟨.Number, lx.unskipped.takeWhile numberChar, ⟨138⟩⟩,
        ⟨lx.input_, lx.tokenStart + (lx.unskipped.takeWhile numberChar).length⟩)) ∨
    (∃ c, firstNonWhitespace lx = some c ∧ identifierChar c = true ∧ isdigit c = false ∧
      getNextToken lx =
        (.ok ⟨wordKind (lx.unskipped.takeWhile identifierChar),
            lx.unskipped.takeWhile identifierChar,
            returnSite (wordKind (lx.unskipped.takeWhile identifierChar))⟩,
          ⟨lx.input_, lx.tokenStart + (lx.unskipped.takeWhile identifierChar).length⟩)) ∨
    (firstNonWhitespace lx = some '#' ∧
      getNextToken lx = (.ok ⟨.Comment, lx.unskipped.takeWhile commentChar, ⟨165⟩⟩,
        ⟨lx.input_, lx.tokenStart + (lx.unskipped.takeWhile commentChar).length⟩)) ∨
    (∃ c k, firstNonWhitespace lx = some c ∧ (c, k) ∈ operatorCatalogue ∧
      getNextToken lx = (.ok ⟨k, [c], returnSite k⟩, ⟨lx.input_, lx.tokenStart + 1⟩)) ∨
    (∃ c, firstNonWhitespace lx = some c ∧ recognised c = false ∧
      getNextToken lx = (.error ("Unexpected character: " ++ String.singleton c),
        ⟨lx.input_, lx.tokenStart + 1⟩)) := by
  cases h : firstNonWhitespace lx with
  | none =>
    left
    refine ⟨?_, getNextToken_end lx h⟩
    unfold firstNonWhitespace at h
    simpa using h
  | some c =>
    right
    by_cases hd : isdigit c = true
    · exact Or.inl ⟨c, rfl, hd, getNextToken_number lx c h hd⟩
    · right
      have hd0 : isdigit c = false := by simpa using hd
      by_cases ha : isalpha c = true ∨ c = '_'
      · left
        have hp : identifierChar c = true := by
          rcases ha with ha | ha
          · simp [identifierChar, isalnum, ha]
          · simp [identifierChar, ha]
        have ht := lexIdentifierOrKeyword_token ⟨lx.input_, lx.tokenStart⟩
        rw [rest_tokenStart] at ht
        refine ⟨c, rfl, hp, hd0, ?_⟩
        rw [← ht]
        exact getNextToken_identifier lx c h hd0 ha
      · right
        have ha0 : isalpha c = false := by
          cases hx : isalpha c with
          | false => rfl
          | true => exact absurd (Or.inl hx) ha
        have hu : c ≠ '_' := fun hx => ha (Or.inr hx)
        by_cases hc : c = '#'
        · left
          subst hc
          exact ⟨rfl, getNextToken_comment lx h⟩
        · right
          have hop := getNextToken_operator lx c h hd0 ha0 hu hc
          by_cases hm : c ∈ operatorChars
          · left
            obtain ⟨k, hk⟩ := (mem_operatorChars_iff c).1 hm
            exact ⟨c, k, rfl, hk, by rw [hop, operatorSwitch_site c k hk]⟩
          · right
            refine ⟨c, rfl, ?_, ?_⟩
            · simp [recognised, hd0, ha0, hu, hc, hm]
            · rw [hop, operatorSwitch_of_not_mem c hm]

theorem take_run (p : Char → Bool) (u : List Char) :
    u.takeWhile p = u.take (u.takeWhile p).length :=
  (take_takeWhile_length p u).symm

theorem run_ne_nil (p : Char → Bool) (lx : Lexer) (c : Char)
    (h : firstNonWhitespace lx = some c) (hp : p c = true) :
    lx.unskipped.takeWhile p ≠ [] := by
  intro he
  have := (run_bounds p lx c h hp).1
  rw [he] at this
  simp at this

theorem unskipped_ne_nil (lx : Lexer) (c : Char) (h : firstNonWhitespace lx = some c) :
    lx.unskipped ≠ [] := by
  obtain ⟨tl, hu⟩ := unskipped_eq_cons lx c h
  rw [hu]
  simp

/-- Every token `getNextToken` returns: where the cursor goes, where the lexeme
comes from, which location it carries, and which kinds it can have. -/
theorem getNextToken_ok (lx lx1 : Lexer) (t : Token) (h : getNextToken lx = (.ok t, lx1)) :
    lx1 = ⟨lx.input_, lx.tokenStart + t.lexeme.length⟩ ∧
    t.lexeme = lx.unskipped.take t.lexeme.length ∧
    t.location = returnSite t.type ∧
    (t.type = .End ↔ lx.unskipped = []) ∧
    (t.type = .End ↔ t.lexeme = []) ∧
    t.type ≠ .Slash ∧ t.type ≠ .Unexpected := by
  rcases getNextToken_shape lx with ⟨hu, hg⟩ | ⟨c, hc, hd, hg⟩ | ⟨c, hc, hp, _, hg⟩ | ⟨hc, hg⟩ |
    ⟨c, k, hc, hk, hg⟩ | ⟨c, _, _, hg⟩
  · rw [hg] at h
    simp only [Prod.mk.injEq, Except.ok.injEq] at h
    obtain ⟨rfl, rfl⟩ := h
    simp [hu, returnSite]
  · rw [hg] at h
    simp only [Prod.mk.injEq, Except.ok.injEq] at h
    obtain ⟨rfl, rfl⟩ := h
    have hne := run_ne_nil numberChar lx c hc (by simp [numberChar, hd])
    refine ⟨rfl, take_run _ _, rfl, ?_, ?_, by simp, by simp⟩
    · simp [unskipped_ne_nil lx c hc]
    · simp [hne]
  · rw [hg] at h
    simp only [Prod.mk.injEq, Except.ok.injEq] at h
    obtain ⟨rfl, rfl⟩ := h
    have hne := run_ne_nil identifierChar lx c hc hp
    have hw := wordKind_cases (lx.unskipped.takeWhile identifierChar)
    refine ⟨rfl, take_run _ _, rfl, ?_, ?_, ?_, ?_⟩
    · simp [unskipped_ne_nil lx c hc, wordKind_ne_End]
    · simp [hne, wordKind_ne_End]
    · rcases hw with hw | hw | hw | hw <;> simp [hw]
    · rcases hw with hw | hw | hw | hw <;> simp [hw]
  · rw [hg] at h
    simp only [Prod.mk.injEq, Except.ok.injEq] at h
    obtain ⟨rfl, rfl⟩ := h
    have hne := run_ne_nil commentChar lx '#' hc (by decide)
    refine ⟨rfl, take_run _ _, rfl, ?_, ?_, by simp, by simp⟩
    · simp [unskipped_ne_nil lx '#' hc]
    · simp [hne]
  · rw [hg] at h
    simp only [Prod.mk.injEq, Except.ok.injEq] at h
    obtain ⟨rfl, rfl⟩ := h
    obtain ⟨tl, hu⟩ := unskipped_eq_cons lx c hc
    obtain ⟨h1, h2, h3⟩ := operatorCatalogue_kind c k hk
    refine ⟨rfl, by simp [hu], rfl, ?_, ?_, h3, h2⟩
    · simp [hu, h1]
    · simp [h1]
  · rw [hg] at h
    simp at h

/-! ## C11: whitespace is skipped, never returned -/

theorem lexeme_head (lx lx1 : Lexer) (t : Token) (h : getNextToken lx = (.ok t, lx1))
    (hne : t.type ≠ .End) : t.lexeme.head? = firstNonWhitespace lx := by
  obtain ⟨_, hl, _, _, he, _, _⟩ := getNextToken_ok lx lx1 t h
  have hnil : t.lexeme ≠ [] := fun hx => hne (he.2 hx)
  have hpos : 0 < t.lexeme.length := List.length_pos.2 hnil
  unfold firstNonWhitespace
  rw [hl]
  cases hu : lx.unskipped with
  | nil => simp
  | cons a tl =>
    obtain ⟨n, hn⟩ : ∃ n, t.lexeme.length = n + 1 := ⟨t.lexeme.length - 1, by omega⟩
    rw [hn]
    rfl

/-- C11: whitespace is never returned as a token: the lexeme of every token
other than `End` starts with a character that is not whitespace (not a space,
tab, newline, vertical tab, form feed or carriage return); two blanks, `x`, two
blanks is the identifier `x` followed by `End`. -/
theorem whitespace_transparency :
    (∀ (lx lx1 : Lexer) (t : Token), getNextToken lx = (.ok t, lx1) → t.type ≠ .End →
      ∃ c, t.lexeme.head? = some c ∧ isspace c = false ∧
        c ∉ [' ', '\t', '\n', Char.ofNat 11, Char.ofNat 12, '\r']) ∧
    tokenize 2 (Lexer.new "  x  ".toList) =
      .finished [⟨.Identifier, "x".toList, ⟨156⟩⟩, ⟨.End, [], ⟨73⟩⟩] := by
  refine ⟨fun lx lx1 t h hne => ?_, by rfl⟩
  have hh := lexeme_head lx lx1 t h hne
  obtain ⟨_, _, _, hu, _, _, _⟩ := getNextToken_ok lx lx1 t h
  cases hf : firstNonWhitespace lx with
  | none =>
    exfalso
    apply hne
    apply hu.2
    unfold firstNonWhitespace at hf
    simpa using hf
  | some c =>
    have hs := firstNonWhitespace_not_space lx c hf
    refine ⟨c, by rw [hh, hf], hs, ?_⟩
    intro hm
    simp only [List.mem_cons, List.mem_singleton, List.not_mem_nil, or_false] at hm
    rcases hm with rfl | rfl | rfl | rfl | rfl | rfl <;> revert hs <;> decide

/-- C11 on the input blank, `+`: the token `+` starts with a character other
than whitespace. -/
theorem whitespace_transparency_witness :
    ∃ c, (⟨.Plus, ['+'], ⟨172⟩⟩ : Token).lexeme.head? = some c ∧ isspace c = false ∧
      c ∉ [' ', '\t', '\n', Char.ofNat 11, Char.ofNat 12, '\r'] :=
  whitespace_transparency.1 (Lexer.new " +".toList) ⟨" +".toList, 2⟩ ⟨.Plus, ['+'], ⟨172⟩⟩
    (by rfl) (by decide)

/-! ## C12: end of input -/

/-- C12: `getNextToken` returns `End` exactly when every character at or after
the cursor is whitespace (so also when none is left); the `End` token has the
empty lexeme and is the only token that has it. -/
theorem end_of_input (lx : Lexer) :
    ((∃ t lx1, getNextToken lx = (.ok t, lx1) ∧ t.type = .End) ↔
      ∀ c ∈ lx.rest, isspace c = true) ∧
    (∀ t lx1, getNextToken lx = (.ok t, lx1) → (t.type = .End ↔ t.lexeme = [])) := by
  have hnil : lx.unskipped = [] ↔ ∀ c ∈ lx.rest, isspace c = true := by
    unfold Lexer.unskipped
    exact List.dropWhile_eq_nil_iff
  refine ⟨⟨?_, fun hall => ?_⟩, fun t lx1 h => (getNextToken_ok lx lx1 t h).2.2.2.2.1⟩
  · rintro ⟨t, lx1, h, hE⟩
    exact hnil.1 ((getNextToken_ok lx lx1 t h).2.2.2.1.1 hE)
  · have hf : firstNonWhitespace lx = none := by
      unfold firstNonWhitespace
      rw [hnil.2 hall]
      rfl
    exact ⟨_, _, getNextToken_end lx hf, rfl⟩

/-! ## C13: the lexeme is the consumed slice -/

/-- C13: when `getNextToken` returns a token and moves the cursor from `p` to
`q`, the input is unchanged, `p ≤ q`, and the slice of the input from `p` to
`q` is a run of whitespace characters followed by exactly the lexeme. -/
theorem lexeme_is_consumed_slice (lx lx1 : Lexer) (t : Token)
    (h : getNextToken lx = (.ok t, lx1)) :
    lx1.input_ = lx.input_ ∧ lx.position_ ≤ lx1.position_ ∧
    ∃ ws, (∀ c ∈ ws, isspace c = true) ∧
      substr lx.input_ lx.position_ (lx1.position_ - lx.position_) = ws ++ t.lexeme ∧
      t.lexeme = substr lx.input_ (lx.position_ + ws.length) t.lexeme.length := by
  obtain ⟨h1, hl, _⟩ := getNextToken_ok lx lx1 t h
  subst h1
  refine ⟨rfl, ?_, lx.rest.takeWhile isspace, fun c hc => List.mem_takeWhile_imp hc, ?_, ?_⟩
  · simp only [Lexer.tokenStart]; omega
  · have hsplit : lx.rest = lx.rest.takeWhile isspace ++ lx.unskipped :=
      (List.takeWhile_append_dropWhile isspace lx.rest).symm
    have hlen : lx.tokenStart + t.lexeme.length - lx.position_ =
        (lx.rest.takeWhile isspace).length + t.lexeme.length := by
      simp only [Lexer.tokenStart]; omega
    have htake := @List.take_append Char (lx.rest.takeWhile isspace) lx.unskipped
      t.lexeme.length
    rw [← hsplit, ← hl] at htake
    simp only [substr, hlen]
    exact htake
  · show t.lexeme = List.take _ (Lexer.mk lx.input_ lx.tokenStart).rest
    rw [rest_tokenStart]
    exact hl

/-- C13 on the input blank, `ab`, blank with the cursor at 0: the slice from 0
to 3 is one blank followed by the lexeme `ab`. -/
theorem lexeme_is_consumed_slice_witness :
    (⟨" ab ".toList, 3⟩ : Lexer).input_ = (Lexer.new " ab ".toList).input_ ∧
    (Lexer.new " ab ".toList).position_ ≤ (⟨" ab ".toList, 3⟩ : Lexer).position_ ∧
    ∃ ws, (∀ c ∈ ws, isspace c = true) ∧
      substr (Lexer.new " ab ".toList).input_ (Lexer.new " ab ".toList).position_
        ((⟨" ab ".toList, 3⟩ : Lexer).position_ - (Lexer.new " ab ".toList).position_) =
          ws ++ (⟨.Identifier, "ab".toList, ⟨156⟩⟩ : Token).lexeme ∧
      (⟨.Identifier, "ab".toList, ⟨156⟩⟩ : Token).lexeme =
        substr (Lexer.new " ab ".toList).input_
          ((Lexer.new " ab ".toList).position_ + ws.length)
          (⟨.Identifier, "ab".toList, ⟨156⟩⟩ : Token).lexeme.length :=
  lexeme_is_consumed_slice (Lexer.new " ab ".toList) ⟨" ab ".toList, 3⟩
    ⟨.Identifier, "ab".toList, ⟨156⟩⟩ (by rfl)

/-! ## C14: the location of a token -/

/-- C14, as stated, fails: in the input `1`, newline, `2` the two `Number`
tokens end at the buffer positions (line 1, column 2) and (line 2, column 2),
yet both carry the same location, line 138 of `main.cpp`, which is neither. -/
theorem location_is_not_buffer_position :
    getNextToken (Lexer.new "1\n2".toList) =
      (.ok ⟨.Number, "1".toList, ⟨138⟩⟩, ⟨"1\n2".toList, 1⟩) ∧
    getNextToken ⟨"1\n2".toList, 1⟩ =
      (.ok ⟨.Number, "2".toList, ⟨138⟩⟩, ⟨"1\n2".toList, 3⟩) ∧
    bufferPosition "1\n2".toList 1 = (1, 2) ∧
    bufferPosition "1\n2".toList 3 = (2, 2) ∧
    ¬ ∀ (lx lx1 : Lexer) (t : Token), getNextToken lx = (.ok t, lx1) →
      t.location.line = (bufferPosition lx1.input_ lx1.position_).1 := by
  refine ⟨by rfl, by rfl, by rfl, by rfl, fun hall => ?_⟩
  have h := hall (Lexer.new "1\n2".toList) ⟨"1\n2".toList, 1⟩ ⟨.Number, "1".toList, ⟨138⟩⟩
    (by rfl)
  revert h
  decide

/-- C14, amended: the location of every token `getNextToken` returns is the
place in `main.cpp` of the `return` statement that built it (line 73 for `End`,
138 for `Number`, 156 for `Identifier`, and so on); it is fixed by the kind of
the token, so any two returned tokens of the same kind carry the same location,
whatever the inputs and wherever the tokens lie in them. -/
theorem location_is_return_site (lx lx1 : Lexer) (t : Token)
    (h : getNextToken lx = (.ok t, lx1)) :
    t.location = returnSite t.type ∧
    ∀ (lx' lx1' : Lexer) (t' : Token), getNextToken lx' = (.ok t', lx1') →
      t'.type = t.type → t'.location = t.location := by
  have h1 := (getNextToken_ok lx lx1 t h).2.2.1
  refine ⟨h1, fun lx' lx1' t' h' he => ?_⟩
  rw [(getNextToken_ok lx' lx1' t' h').2.2.1, he, h1]

/-- C14, amended, on the first `Number` token of `1`, newline, `2`. -/
theorem location_is_return_site_witness :
    (⟨.Number, "1".toList, ⟨138⟩⟩ : Token).location =
      returnSite (⟨.Number, "1".toList, ⟨138⟩⟩ : Token).type ∧
    ∀ (lx' lx1' : Lexer) (t' : Token), getNextToken lx' = (.ok t', lx1') →
      t'.type = (⟨.Number, "1".toList, ⟨138⟩⟩ : Token).type →
      t'.location = (⟨.Number, "1".toList, ⟨138⟩⟩ : Token).location :=
  location_is_return_site (Lexer.new "1\n2".toList) ⟨"1\n2".toList, 1⟩
    ⟨.Number, "1".toList, ⟨138⟩⟩ (by rfl)

/-! ## C15: only what is left of the input matters -/

theorem rest_after (lx : Lexer) (n : Nat) :
    (Lexer.mk lx.input_ (lx.tokenStart + n)).rest = lx.unskipped.drop n := by
  rw [← rest_tokenStart]
  simp only [Lexer.rest]
  rw [List.drop_drop, Nat.add_comm]

theorem identifierChar_start (c : Char) (hp : identifierChar c = true)
    (hd : isdigit c = false) : isalpha c = true ∨ c = '_' := by
  simp only [identifierChar, isalnum, hd, Bool.or_false, Bool.or_eq_true, beq_iff_eq] at hp
  exact hp

theorem recognised_false (c : Char) (h : recognised c = false) :
    isdigit c = false ∧ isalpha c = false ∧ c ≠ '_' ∧ c ≠ '#' ∧ c ∉ operatorChars := by
  simpa [recognised, and_assoc] using h

/-- Two lexers that have the same input left after the whitespace at their
cursors get the same outcome from `getNextToken` and move by the same number of
characters past that whitespace. -/
theorem getNextToken_congr (lx lx' : Lexer) (h : lx.unskipped = lx'.unskipped) :
    ∃ out n, getNextToken lx = (out, ⟨lx.input_, lx.tokenStart + n⟩) ∧
      getNextToken lx' = (out, ⟨lx'.input_, lx'.tokenStart + n⟩) := by
  have hf : firstNonWhitespace lx' = firstNonWhitespace lx := by
    unfold firstNonWhitespace
    rw [h]
  rcases getNextToken_shape lx with ⟨hu, hg⟩ | ⟨c, hc, hd, hg⟩ | ⟨c, hc, hp, hd, hg⟩ |
    ⟨hc, hg⟩ | ⟨c, k, hc, hk, hg⟩ | ⟨c, hc, hr, hg⟩
  · refine ⟨_, 0, hg, ?_⟩
    have hn : firstNonWhitespace lx' = none := by
      rw [hf]
      unfold firstNonWhitespace
      rw [hu]
      rfl
    exact getNextToken_end lx' hn
  · refine ⟨_, _, hg, ?_⟩
    rw [h]
    exact getNextToken_number lx' c (hf.trans hc) hd
  · refine ⟨_, _, hg, ?_⟩
    have ha := identifierChar_start c hp hd
    have ht := lexIdentifierOrKeyword_token ⟨lx'.input_, lx'.tokenStart⟩
    rw [rest_tokenStart] at ht
    rw [h, ← ht]
    exact getNextToken_identifier lx' c (hf.trans hc) hd ha
  · refine ⟨_, _, hg, ?_⟩
    rw [h]
    exact getNextToken_comment lx' (hf.trans hc)
  · refine ⟨_, _, hg, ?_⟩
    obtain ⟨hd, ha, hu, hh, _⟩ :=
      operatorChars_unclassified c ((mem_operatorChars_iff c).2 ⟨k, hk⟩)
    rw [getNextToken_operator lx' c (hf.trans hc) hd ha hu hh, operatorSwitch_site c k hk]
  · refine ⟨_, _, hg, ?_⟩
    obtain ⟨hd, ha, hu, hh, hm⟩ := recognised_false c hr
    rw [getNextToken_operator lx' c (hf.trans hc) hd ha hu hh, operatorSwitch_of_not_mem c hm]

/-- C15: when what is left of the input at the cursor is the same for two
lexers, `getNextToken` has the same outcome on both (the same token, or the
same failure), moves both cursors forward by the same amount, and leaves the
same input to scan; what precedes the cursor plays no part. -/
theorem scanning_depends_on_rest_only (lx lx' : Lexer) (h : lx.rest = lx'.rest) :
    (getNextToken lx).1 = (getNextToken lx').1 ∧
    lx.position_ ≤ (getNextToken lx).2.position_ ∧
    lx'.position_ ≤ (getNextToken lx').2.position_ ∧
    (getNextToken lx).2.position_ - lx.position_ =
      (getNextToken lx').2.position_ - lx'.position_ ∧
    (getNextToken lx).2.rest = (getNextToken lx').2.rest := by
  have hu : lx.unskipped = lx'.unskipped := by
    unfold Lexer.unskipped
    rw [h]
  obtain ⟨out, n, h1, h2⟩ := getNextToken_congr lx lx' hu
  rw [h1, h2]
  refine ⟨rfl, ?_, ?_, ?_, ?_⟩
  · simp only [Lexer.tokenStart]; omega
  · simp only [Lexer.tokenStart]; omega
  · simp only [Lexer.tokenStart, h]; omega
  · simp only [rest_after, hu]

/-- C15 on `ab+c` at cursor 2 and `+c` at cursor 0: what is left is `+c` in both. -/
theorem scanning_depends_on_rest_only_witness :
    (getNextToken ⟨"ab+c".toList, 2⟩).1 = (getNextToken (Lexer.new "+c".toList)).1 ∧
    (⟨"ab+c".toList, 2⟩ : Lexer).position_ ≤ (getNextToken ⟨"ab+c".toList, 2⟩).2.position_ ∧
    (Lexer.new "+c".toList).position_ ≤ (getNextToken (Lexer.new "+c".toList)).2.position_ ∧
    (getNextToken ⟨"ab+c".toList, 2⟩).2.position_ - (⟨"ab+c".toList, 2⟩ : Lexer).position_ =
      (getNextToken (Lexer.new "+c".toList)).2.position_ - (Lexer.new "+c".toList).position_ ∧
    (getNextToken ⟨"ab+c".toList, 2⟩).2.rest = (getNextToken (Lexer.new "+c".toList)).2.rest :=
  scanning_depends_on_rest_only ⟨"ab+c".toList, 2⟩ (Lexer.new "+c".toList) (by rfl)

/-! ## C16: the input of `main` -/

set_option maxRecDepth 100000 in
/-- C16: the input built into `main` is scanned from cursor 0 to `End` in 59
calls, none of which fails, and the tokens begin with Keyword `include`,
LessThan `<`, Identifier `iostream`, GreaterThan `>`, Comment
`# The main function.`, DataType `int`, Identifier `main`. -/
theorem demo_input_scan :
    ∃ tokens, tokenize 59 (Lexer.new demoInput) = .finished tokens ∧
      tokens.length = 59 ∧
      (kindsAndLexemes tokens).take 7 =
        [(.Keyword, "include"), (.LessThan, "<"), (.Identifier, "iostream"),
          (.GreaterThan, ">"), (.Comment, "# The main function."), (.DataType, "int"),
          (.Identifier, "main")] :=
  ⟨_, rfl, rfl, by decide⟩

/-! ## C17: progress and bounds -/

theorem tokenStart_le_length (lx : Lexer) (h : lx.position_ ≤ lx.input_.length) :
    lx.tokenStart ≤ lx.input_.length := by
  have hle := (List.takeWhile_sublist (l := lx.rest) isspace).length_le
  have hlen : lx.rest.length = lx.input_.length - lx.position_ := by
    simp [Lexer.rest]
  simp only [Lexer.tokenStart]
  omega

/-- One call keeps the input, does not move the cursor back, and keeps it
within the input when it was. -/
theorem getNextToken_step (lx : Lexer) :
    (getNextToken lx).2.input_ = lx.input_ ∧
    lx.position_ ≤ (getNextToken lx).2.position_ ∧
    (lx.position_ ≤ lx.input_.length → (getNextToken lx).2.position_ ≤ lx.input_.length) := by
  have hps := position_le_tokenStart lx
  rcases getNextToken_cases lx with ⟨_, hg⟩ | ⟨c, t, hc, _, _, _, hle, hg⟩ | ⟨c, hc, _, hg⟩
  · rw [hg]
    exact ⟨rfl, hps, fun h => tokenStart_le_length lx h⟩
  · rw [hg]
    exact ⟨rfl, by simp only; omega, fun _ => hle⟩
  · rw [hg]
    have hlt := tokenStart_lt lx c hc
    exact ⟨rfl, by simp only; omega, fun _ => by simp only; omega⟩

theorem afterCalls_bound : ∀ (n : Nat) (lx : Lexer), lx.position_ ≤ lx.input_.length →
    (afterCalls n lx).input_ = lx.input_ ∧ (afterCalls n lx).position_ ≤ lx.input_.length := by
  intro n
  induction n with
  | zero => intro lx h; exact ⟨rfl, h⟩
  | succ n ih =>
    intro lx h
    obtain ⟨h1, _, h3⟩ := getNextToken_step lx
    have := ih (getNextToken lx).2 (by rw [h1]; exact h3 h)
    rw [h1] at this
    exact this

/-- A finished scan returned no more tokens other than `End` than there were
characters left at its start. -/
theorem tokenize_count : ∀ (fuel : Nat) (lx : Lexer) (tokens : List Token),
    tokenize fuel lx = .finished tokens →
    (tokens.filter (fun t => decide (t.type ≠ .End))).length ≤
      lx.input_.length - lx.position_ := by
  intro fuel
  induction fuel with
  | zero => intro lx tokens h; simp [tokenize] at h
  | succ n ih =>
    intro lx tokens h
    rcases getNextToken_cases lx with ⟨_, hg⟩ | ⟨c, t, hc, _, ht, hpos, hle, hg⟩ | ⟨c, _, _, hg⟩
    · rw [tokenize, hg] at h
      simp only [if_true, ScanResult.finished.injEq] at h
      subst h
      simp
    · have hlt := tokenStart_lt lx c hc
      have hps := position_le_tokenStart lx
      rw [tokenize, hg] at h
      simp only [ht, if_false] at h
      cases hr : tokenize n ⟨lx.input_, lx.tokenStart + t.lexeme.length⟩ with
      | finished ts =>
        rw [hr] at h
        simp only [ScanResult.cons, ScanResult.finished.injEq] at h
        subst h
        have := ih _ ts hr
        simp only [List.filter_cons, ht, ne_eq, not_false_eq_true, decide_True, if_true,
          List.length_cons] at this ⊢
        omega
      | thrown ts w => rw [hr] at h; simp [ScanResult.cons] at h
      | outOfFuel ts => rw [hr] at h; simp [ScanResult.cons] at h
    · rw [tokenize, hg] at h
      simp at h

/-- C17: a call keeps the input and never moves the cursor back; from cursor 0
the cursor never exceeds the length of the input, whatever the number of calls;
a call that returns a token other than `End` moves the cursor strictly forward;
so a scan of an input of length `n` that reaches `End` returned at most `n`
tokens other than `End`. -/
theorem progress_and_bounds :
    (∀ lx : Lexer, (getNextToken lx).2.input_ = lx.input_ ∧
      lx.position_ ≤ (getNextToken lx).2.position_ ∧
      (lx.position_ ≤ lx.input_.length →
        (getNextToken lx).2.position_ ≤ lx.input_.length)) ∧
    (∀ (input : List Char) (n : Nat),
      (afterCalls n (Lexer.new input)).position_ ≤ input.length) ∧
    (∀ (lx lx1 : Lexer) (t : Token), getNextToken lx = (.ok t, lx1) → t.type ≠ .End →
      lx.position_ < lx1.position_) ∧
    (∀ (input : List Char) (fuel : Nat) (tokens : List Token),
      tokenize fuel (Lexer.new input) = .finished tokens →
      (tokens.filter (fun t => decide (t.type ≠ .End))).length ≤ input.length) := by
  refine ⟨getNextToken_step, fun input n => ?_, fun lx lx1 t h hne => ?_,
    fun input fuel tokens h => ?_⟩
  · exact (afterCalls_bound n (Lexer.new input) (Nat.zero_le _)).2
  · obtain ⟨h1, _, _, _, he, _, _⟩ := getNextToken_ok lx lx1 t h
    have hpos : 0 < t.lexeme.length := List.length_pos.2 (fun hx => hne (he.2 hx))
    have hps := position_le_tokenStart lx
    rw [h1]
    simp only
    omega
  · exact tokenize_count fuel (Lexer.new input) tokens h

/-- C17 on the input `a b`: the first call moves the cursor from 0 to 1. -/
theorem progress_and_bounds_witness :
    (Lexer.new "a b".toList).position_ < (⟨"a b".toList, 1⟩ : Lexer).position_ :=
  progress_and_bounds.2.2.1 (Lexer.new "a b".toList) ⟨"a b".toList, 1⟩
    ⟨.Identifier, "a".toList, ⟨156⟩⟩ (by rfl) (by decide)

/-! ## C19: kinds that are never returned -/

/-- C19: `getNextToken` never returns a token of kind `Slash` or `Unexpected`,
and a `/` as first non-whitespace character always gives `Divide`. -/
theorem slash_and_unexpected_unreachable :
    (∀ (lx lx1 : Lexer) (t : Token), getNextToken lx = (.ok t, lx1) →
      t.type ≠ .Slash ∧ t.type ≠ .Unexpected) ∧
    (∀ lx : Lexer, firstNonWhitespace lx = some '/' →
      getNextToken lx = (.ok ⟨.Divide, ['/'], ⟨178⟩⟩, ⟨lx.input_, lx.tokenStart + 1⟩)) := by
  refine ⟨fun lx lx1 t h => (getNextToken_ok lx lx1 t h).2.2.2.2.2, fun lx h => ?_⟩
  rw [getNextToken_operator lx '/' h (by decide) (by decide) (by decide) (by decide)]
  rfl

/-- C19 on the input `a/b` at cursor 1. -/
theorem slash_and_unexpected_unreachable_witness :
    getNextToken ⟨"a/b".toList, 1⟩ =
      (.ok ⟨.Divide, ['/'], ⟨178⟩⟩,
        ⟨(⟨"a/b".toList, 1⟩ : Lexer).input_, (⟨"a/b".toList, 1⟩ : Lexer).tokenStart + 1⟩) :=
  slash_and_unexpected_unreachable.2 ⟨"a/b".toList, 1⟩ (by rfl)

/-! ## C18: scanning the lexemes again -/

theorem takeWhile_append_stop (p : Char → Bool) (l r : List Char)
    (hl : ∀ x ∈ l, p x = true) (hr : ∀ y, r.head? = some y → p y = false) :
    (l ++ r).takeWhile p = l := by
  induction l with
  | nil =>
    cases r with
    | nil => rfl
    | cons y r => simp [List.takeWhile_cons, hr y rfl]
  | cons a l ih =>
    have ha : p a = true := hl a (List.mem_cons_self _ _)
    simp only [List.cons_append, List.takeWhile_cons, ha, if_true]
    rw [ih (fun x hx => hl x (List.mem_cons_of_mem _ hx))]

/-- A lexer at cursor 0 of an input that starts with a character other than
whitespace. -/
theorem fresh_lexer (c : Char) (l : List Char) (hs : isspace c = false) :
    (Lexer.mk (c :: l) 0).unskipped = c :: l ∧ (Lexer.mk (c :: l) 0).tokenStart = 0 ∧
      firstNonWhitespace ⟨c :: l, 0⟩ = some c := by
  simp [Lexer.unskipped, Lexer.rest, Lexer.tokenStart, firstNonWhitespace, hs,
    List.takeWhile_cons, List.dropWhile_cons]

/-- The loop of `main` gives the same result on two lexers that have the same
input left after the whitespace at their cursors. -/
theorem tokenize_congr : ∀ (fuel : Nat) (lx lx' : Lexer), lx.unskipped = lx'.unskipped →
    tokenize fuel lx = tokenize fuel lx' := by
  intro fuel
  induction fuel with
  | zero => intro lx lx' _; rfl
  | succ n ih =>
    intro lx lx' h
    obtain ⟨out, k, h1, h2⟩ := getNextToken_congr lx lx' h
    have hnext : (Lexer.mk lx.input_ (lx.tokenStart + k)).unskipped =
        (Lexer.mk lx'.input_ (lx'.tokenStart + k)).unskipped := by
      unfold Lexer.unskipped
      rw [rest_after, rest_after, h]
    rw [tokenize, tokenize, h1, h2]
    cases out with
    | error w => rfl
    | ok t =>
      simp only
      rw [ih _ _ hnext]

/-- A run cut out of one input, put in front of an end of input or a newline:
a lexer at cursor 0 of the new input sees the same first character and the
same run. -/
theorem run_relex (p : Char → Bool) (u r : List Char) (c : Char)
    (hu : (u.takeWhile p).head? = some c) (hs : isspace c = false)
    (hp : p '\n' = false) (hr : r.head? = none ∨ r.head? = some '\n') :
    (Lexer.mk (u.takeWhile p ++ r) 0).unskipped = u.takeWhile p ++ r ∧
    (Lexer.mk (u.takeWhile p ++ r) 0).tokenStart = 0 ∧
    firstNonWhitespace ⟨u.takeWhile p ++ r, 0⟩ = some c ∧
    (u.takeWhile p ++ r).takeWhile p = u.takeWhile p := by
  have hstop : (u.takeWhile p ++ r).takeWhile p = u.takeWhile p := by
    apply takeWhile_append_stop p _ r (fun x hx => List.mem_takeWhile_imp hx)
    intro y hy
    rcases hr with hr | hr
    · rw [hr] at hy; cases hy
    · rw [hr] at hy
      cases hy
      exact hp
  cases hl : u.takeWhile p with
  | nil => rw [hl] at hu; cases hu
  | cons a l =>
    rw [hl] at hu hstop
    simp only [List.head?_cons, Option.some.injEq] at hu
    subst hu
    obtain ⟨f1, f2, f3⟩ := fresh_lexer a (l ++ r) hs
    exact ⟨f1, f2, f3, hstop⟩

/-- A returned token other than `End` is returned again, as it is, when its
lexeme starts an input and is followed there by a newline or by nothing. -/
theorem getNextToken_relex (lx lx1 : Lexer) (t : Token) (h : getNextToken lx = (.ok t, lx1))
    (hne : t.type ≠ .End) (r : List Char) (hr : r.head? = none ∨ r.head? = some '\n') :
    getNextToken ⟨t.lexeme ++ r, 0⟩ = (.ok t, ⟨t.lexeme ++ r, t.lexeme.length⟩) := by
  rcases getNextToken_shape lx with ⟨hu, hg⟩ | ⟨c, hc, hd, hg⟩ | ⟨c, hc, hp, hd, hg⟩ |
    ⟨hc, hg⟩ | ⟨c, k, hc, hk, hg⟩ | ⟨c, _, _, hg⟩
  · rw [hg] at h
    simp only [Prod.mk.injEq, Except.ok.injEq] at h
    obtain ⟨rfl, _⟩ := h
    exact absurd rfl hne
  · rw [hg] at h
    simp only [Prod.mk.injEq, Except.ok.injEq] at h
    obtain ⟨rfl, _⟩ := h
    have hs := firstNonWhitespace_not_space lx c hc
    obtain ⟨f1, f2, f3, f4⟩ := run_relex numberChar lx.unskipped r c
      (head?_run numberChar lx c hc (by simp [numberChar, hd])) hs (by decide) hr
    rw [getNextToken_number _ c f3 hd, f1, f2, f4, Nat.zero_add]
  · rw [hg] at h
    simp only [Prod.mk.injEq, Except.ok.injEq] at h
    obtain ⟨rfl, _⟩ := h
    have hs := firstNonWhitespace_not_space lx c hc
    obtain ⟨f1, f2, f3, f4⟩ := run_relex identifierChar lx.unskipped r c
      (head?_run identifierChar lx c hc hp) hs (by decide) hr
    have hrest : (Lexer.mk (lx.unskipped.takeWhile identifierChar ++ r)
        (Lexer.mk (lx.unskipped.takeWhile identifierChar ++ r) 0).tokenStart).rest =
        (Lexer.mk (lx.unskipped.takeWhile identifierChar ++ r) 0).unskipped :=
      rest_tokenStart ⟨lx.unskipped.takeWhile identifierChar ++ r, 0⟩
    have ht := lexIdentifierOrKeyword_token
      ⟨lx.unskipped.takeWhile identifierChar ++ r,
        (Lexer.mk (lx.unskipped.takeWhile identifierChar ++ r) 0).tokenStart⟩
    rw [hrest, f1, f4] at ht
    show getNextToken ⟨lx.unskipped.takeWhile identifierChar ++ r, 0⟩ = _
    rw [getNextToken_identifier _ c f3 hd (identifierChar_start c hp hd), ht, f1, f2, f4,
      Nat.zero_add]
  · rw [hg] at h
    simp only [Prod.mk.injEq, Except.ok.injEq] at h
    obtain ⟨rfl, _⟩ := h
    have hs := firstNonWhitespace_not_space lx '#' hc
    obtain ⟨f1, f2, f3, f4⟩ := run_relex commentChar lx.unskipped r '#'
      (head?_run commentChar lx '#' hc (by decide)) hs (by decide) hr
    rw [getNextToken_comment _ f3, f1, f2, f4, Nat.zero_add]
  · rw [hg] at h
    simp only [Prod.mk.injEq, Except.ok.injEq] at h
    obtain ⟨rfl, _⟩ := h
    have hs := firstNonWhitespace_not_space lx c hc
    obtain ⟨hd, ha, hu, hh, _⟩ :=
      operatorChars_unclassified c ((mem_operatorChars_iff c).2 ⟨k, hk⟩)
    obtain ⟨_, f2, f3⟩ := fresh_lexer c r hs
    show getNextToken ⟨c :: r, 0⟩ = _
    rw [getNextToken_operator _ c f3 hd ha hu hh, operatorSwitch_site c k hk, f2]
    rfl
  · rw [hg] at h
    simp at h

/-- The input made of the lexemes of `t :: ts`, when `t` is not `End`: the
lexeme of `t`, then nothing or a newline, then the input made of `ts`. -/
theorem relexInput_cons (t : Token) (ts : List Token) (ht : t.type ≠ .End) :
    ∃ r, relexInput (t :: ts) = t.lexeme ++ r ∧
      (r.head? = none ∨ r.head? = some '\n') ∧
      r.dropWhile isspace = (relexInput ts).dropWhile isspace := by
  unfold relexInput
  simp only [List.filter_cons, ht, ne_eq, not_false_eq_true, decide_True, if_true,
    List.map_cons]
  cases (ts.filter (fun t => decide (¬ t.type = .End))).map Token.lexeme with
  | nil => exact ⟨[], by simp [List.intercalate], Or.inl rfl, rfl⟩
  | cons b m =>
    refine ⟨'\n' :: List.intercalate ['\n'] (b :: m), ?_, Or.inr rfl, ?_⟩
    · simp [List.intercalate, List.intersperse]
    · rw [List.dropWhile_cons]
      simp [show isspace '\n' = true by decide]

/-- Scanning the lexemes of a finished scan, joined by newlines, gives the
tokens of that scan again. -/
theorem tokenize_relex : ∀ (fuel : Nat) (lx : Lexer) (tokens : List Token),
    tokenize fuel lx = .finished tokens →
    tokenize fuel ⟨relexInput tokens, 0⟩ = .finished tokens := by
  intro fuel
  induction fuel with
  | zero => intro lx tokens h; simp [tokenize] at h
  | succ n ih =>
    intro lx tokens h
    rcases getNextToken_cases lx with ⟨_, hg⟩ | ⟨c, t, hc, _, ht, _, _, hg⟩ | ⟨c, _, _, hg⟩
    · rw [tokenize, hg] at h
      simp only [if_true, ScanResult.finished.injEq] at h
      subst h
      rfl
    · rw [tokenize, hg] at h
      simp only [ht, if_false] at h
      cases hr : tokenize n ⟨lx.input_, lx.tokenStart + t.lexeme.length⟩ with
      | finished ts =>
        rw [hr] at h
        simp only [ScanResult.cons, ScanResult.finished.injEq] at h
        subst h
        obtain ⟨r, h1, h2, h3⟩ := relexInput_cons t ts ht
        have hnext : (Lexer.mk (t.lexeme ++ r) t.lexeme.length).unskipped =
            (Lexer.mk (relexInput ts) 0).unskipped := by
          simp [Lexer.unskipped, Lexer.rest, h3]
        rw [h1, tokenize, getNextToken_relex lx _ t hg ht r h2]
        simp only [ht, if_false]
        rw [tokenize_congr n _ _ hnext, ih _ ts hr]
        rfl
      | thrown ts w => rw [hr] at h; simp [ScanResult.cons] at h
      | outOfFuel ts => rw [hr] at h; simp [ScanResult.cons] at h
    · rw [tokenize, hg] at h
      simp at h

/-- C18: when the scan of an input from cursor 0 reaches `End` without a
failing call, scanning the lexemes of its tokens other than `End`, joined with
one newline between consecutive lexemes, takes as many calls and returns the
same tokens, so the same (kind, lexeme) pairs followed by `End`. -/
theorem relex_round_trip (input : List Char) (fuel : Nat) (tokens : List Token)
    (h : tokenize fuel (Lexer.new input) = .finished tokens) :
    tokenize fuel (Lexer.new (relexInput tokens)) = .finished tokens ∧
    ∃ again, tokenize fuel (Lexer.new (relexInput tokens)) = .finished again ∧
      kindsAndLexemes again = kindsAndLexemes tokens :=
  ⟨tokenize_relex fuel (Lexer.new input) tokens h,
    tokens, tokenize_relex fuel (Lexer.new input) tokens h, rfl⟩

/-- C18 on the input `x=1 #c`: the lexemes `x`, `=`, `1`, `#c`, one per line,
are scanned into the same four tokens and `End`. -/
theorem relex_round_trip_witness :
    relexInput [⟨.Identifier, "x".toList, ⟨156⟩⟩, ⟨.Assign, "=".toList, ⟨182⟩⟩,
        ⟨.Number, "1".toList, ⟨138⟩⟩, ⟨.Comment, "#c".toList, ⟨165⟩⟩, ⟨.End, [], ⟨73⟩⟩] =
      "x\n=\n1\n#c".toList ∧
    tokenize 5 (Lexer.new "x\n=\n1\n#c".toList) =
      .finished [⟨.Identifier, "x".toList, ⟨156⟩⟩, ⟨.Assign, "=".toList, ⟨182⟩⟩,
        ⟨.Number, "1".toList, ⟨138⟩⟩, ⟨.Comment, "#c".toList, ⟨165⟩⟩, ⟨.End, [], ⟨73⟩⟩] :=
  ⟨by rfl, (relex_round_trip "x=1 #c".toList 5
    [⟨.Identifier, "x".toList, ⟨156⟩⟩, ⟨.Assign, "=".toList, ⟨182⟩⟩,
      ⟨.Number, "1".toList, ⟨138⟩⟩, ⟨.Comment, "#c".toList, ⟨165⟩⟩, ⟨.End, [], ⟨73⟩⟩]
    (by rfl)).1⟩

end ExampleLexer
